import Mathlib

/-!
Verification of the `rust_md` particle-simulation engine against its
specification.  The Rust sources are shallowly embedded in Lean:

* `f64` values are modelled as rationals (`ℚ`), i.e. exact arithmetic;
  `f64::sqrt` has no exact rational counterpart, so functions that call it
  (`Vector::length`, `Vector::normalize`, `HardSphereForce`) take an explicit
  `sqrtf : ℚ → ℚ` parameter standing for the square-root routine.
* Rust panics (out-of-range indexing, `unwrap`/`expect`, failed `assert!`,
  explicit `panic!`) are modelled by returning `none` from an `Option`.
* `usize` indices are modelled as `ℕ`, `i32` offsets as `ℤ`; a Rust
  `as usize` cast of a float is `(Int.floor q).toNat` (truncation towards
  zero saturating at 0, which agrees with floor-then-toNat on all rationals).
* Field and function names follow the Rust sources.
-/

namespace RustMd

/-- 2-D vector (`Vector` in `vector.rs`), components modelled as `ℚ`. -/
@[ext]
structure Vec2 where
  x : ℚ
  y : ℚ
deriving DecidableEq, Repr

namespace Vec2

/-- `Vector::zero`. -/
def zero : Vec2 := ⟨0, 0⟩

instance : Zero Vec2 := ⟨zero⟩

/-- `Vector::add` (componentwise). -/
instance : Add Vec2 := ⟨fun a b => ⟨a.x + b.x, a.y + b.y⟩⟩

/-- `Vector::sub` (componentwise). -/
instance : Sub Vec2 := ⟨fun a b => ⟨a.x - b.x, a.y - b.y⟩⟩

/-- `Vector::mul` by a scalar on the right (`v * c`). -/
def smul (v : Vec2) (c : ℚ) : Vec2 := ⟨v.x * c, v.y * c⟩

/-- `Vector::div` by a scalar (`v / c`). -/
def sdiv (v : Vec2) (c : ℚ) : Vec2 := ⟨v.x / c, v.y / c⟩

/-- `Vector::length_sqr`. -/
def length_sqr (v : Vec2) : ℚ := v.x * v.x + v.y * v.y

/-- `Vector::length`, that is `f64::sqrt(length_sqr)`; `sqrtf` models
`f64::sqrt`. -/
def length (sqrtf : ℚ → ℚ) (v : Vec2) : ℚ := sqrtf v.length_sqr

/-- `Vector::normalize`: the zero vector is returned unchanged, any other
vector is divided by its length. -/
def normalize (sqrtf : ℚ → ℚ) (v : Vec2) : Vec2 :=
  if v.x = 0 ∧ v.y = 0 then v else v.sdiv (v.length sqrtf)

instance : Neg Vec2 := ⟨fun v => ⟨-v.x, -v.y⟩⟩

/-- Componentwise vector arithmetic forms an additive commutative group
(used only to sum force buffers in the statements below). -/
instance : AddCommGroup Vec2 where
  add := (· + ·)
  zero := 0
  neg := (- ·)
  sub := (· - ·)
  add_assoc a b c := by
    cases a; cases b; cases c
    exact Vec2.ext (add_assoc _ _ _) (add_assoc _ _ _)
  zero_add a := by
    cases a
    exact Vec2.ext (zero_add _) (zero_add _)
  add_zero a := by
    cases a
    exact Vec2.ext (add_zero _) (add_zero _)
  add_comm a b := by
    cases a; cases b
    exact Vec2.ext (add_comm _ _) (add_comm _ _)
  neg_add_cancel a := by
    cases a
    exact Vec2.ext (neg_add_cancel _) (neg_add_cancel _)
  sub_eq_add_neg a b := by
    cases a; cases b
    exact Vec2.ext (sub_eq_add_neg _ _) (sub_eq_add_neg _ _)
  nsmul := nsmulRec
  zsmul := zsmulRec

end Vec2

/-- `Bounds` of `simdata.rs`. -/
structure Bounds where
  xlo : ℚ
  xhi : ℚ
  ylo : ℚ
  yhi : ℚ
deriving DecidableEq, Repr

namespace Bounds

/-- `Bounds::width`. -/
def width (b : Bounds) : ℚ := b.xhi - b.xlo

/-- `Bounds::height`. -/
def height (b : Bounds) : ℚ := b.yhi - b.ylo

/-- `Bounds::is_in_bounds`, exactly as written in the source: note the
non-strict comparison `position.y <= self.yhi` on the upper `y` bound. -/
def is_in_bounds (b : Bounds) (position : Vec2) : Bool :=
  decide (b.xlo ≤ position.x) && decide (position.x < b.xhi) &&
    decide (b.ylo ≤ position.y) && decide (position.y ≤ b.yhi)

end Bounds

/-- The two `Topology` implementations of `simdata.rs`: `OpenTopology` and
`HarmonicTopology { wrap_x, wrap_y }`, rendered as a closed variant. -/
inductive Topology where
  | openTopology : Topology
  | harmonicTopology (wrap_x : Bool) (wrap_y : Bool) : Topology
deriving DecidableEq, Repr

/-- The `while *x < bounds.xlo { *x += width }` loop of
`HarmonicTopology::canonical_position`.  The guard `0 < w` is added only to
make the recursion well-founded; whenever `0 < w` (every claim's setting) it
agrees with the source, and for `w ≤ 0` the source loop never terminates. -/
def wrapLow (lo w x : ℚ) : ℚ :=
  if h : x < lo ∧ 0 < w then wrapLow lo w (x + w) else x
termination_by (⌈(lo - x) / w⌉).toNat
decreasing_by
  have hx := h.1
  have hw := h.2
  have h1 : (0 : ℚ) < (lo - x) / w := div_pos (by linarith) hw
  have h2 : (lo - (x + w)) / w = (lo - x) / w - 1 := by field_simp; ring
  have h3 : 0 < ⌈(lo - x) / w⌉ := Int.ceil_pos.mpr h1
  rw [h2, Int.ceil_sub_one]
  omega

/-- The `while bounds.xhi < *x { *x -= width }` loop of
`HarmonicTopology::canonical_position`; guard `0 < w` as in `wrapLow`. -/
def wrapHigh (hi w x : ℚ) : ℚ :=
  if h : hi < x ∧ 0 < w then wrapHigh hi w (x - w) else x
termination_by (⌈(x - hi) / w⌉).toNat
decreasing_by
  have hx := h.1
  have hw := h.2
  have h1 : (0 : ℚ) < (x - hi) / w := div_pos (by linarith) hw
  have h2 : (x - w - hi) / w = (x - hi) / w - 1 := by field_simp; ring
  have h3 : 0 < ⌈(x - hi) / w⌉ := Int.ceil_pos.mpr h1
  rw [h2, Int.ceil_sub_one]
  omega

/-- `HarmonicTopology::canonical_position`: wrap each enabled axis, then
`assert!(bounds.is_in_bounds(..))`; the failed assertion (a panic) is `none`. -/
def harmonicCanonicalPosition (wrap_x wrap_y : Bool) (x y : ℚ) (bounds : Bounds) :
    Option (ℚ × ℚ) :=
  let x' := if wrap_x then wrapHigh bounds.xhi bounds.width (wrapLow bounds.xlo bounds.width x)
            else x
  let y' := if wrap_y then wrapHigh bounds.yhi bounds.height (wrapLow bounds.ylo bounds.height y)
            else y
  if bounds.is_in_bounds ⟨x', y'⟩ then some (x', y') else none

namespace Topology

/-- `Topology::canonical_position` dispatch: `OpenTopology` leaves the point
unchanged (and has no assertion), `HarmonicTopology` wraps and asserts. -/
def canonical_position : Topology → ℚ → ℚ → Bounds → Option (ℚ × ℚ)
  | .openTopology, x, y, _ => some (x, y)
  | .harmonicTopology wx wy, x, y, bounds => harmonicCanonicalPosition wx wy x y bounds

end Topology

/-- `Particle` of `particle.rs`. -/
structure Particle where
  position : Vec2
  radius : ℚ
  mass : ℚ
  velocity : Vec2
  force : Vec2
deriving DecidableEq, Repr

/-- `SimData` of `simdata.rs` (structure-of-arrays store). -/
structure SimData where
  radii : List ℚ
  masses : List ℚ
  positions : List Vec2
  velocities : List Vec2
  forces : List Vec2
  bounds : Bounds
  topology : Topology
  simulation_time : ℚ
deriving DecidableEq, Repr

namespace SimData

/-- `SimData::num_particles` (length of `radii`). -/
def num_particles (sd : SimData) : ℕ := sd.radii.length

/-- `SimData::is_empty`. -/
def is_empty (sd : SimData) : Bool := sd.radii.isEmpty

/-- `SimData::width`. -/
def width (sd : SimData) : ℚ := sd.bounds.width

/-- `SimData::height`. -/
def height (sd : SimData) : ℚ := sd.bounds.height

/-- `SimData::add_particle`: pushes each field of the particle, including its
`force` field, onto the parallel arrays. -/
def add_particle (sd : SimData) (particle : Particle) : SimData :=
  { sd with
    radii := sd.radii ++ [particle.radius]
    masses := sd.masses ++ [particle.mass]
    positions := sd.positions ++ [particle.position]
    velocities := sd.velocities ++ [particle.velocity]
    forces := sd.forces ++ [particle.force] }

/-- `SimData::add_particles`: pushes each particle's data but a zero force. -/
def add_particles (sd : SimData) (particles : List Particle) : SimData :=
  particles.foldl
    (fun s p =>
      { s with
        radii := s.radii ++ [p.radius]
        masses := s.masses ++ [p.mass]
        positions := s.positions ++ [p.position]
        velocities := s.velocities ++ [p.velocity]
        forces := s.forces ++ [Vec2.zero] })
    sd

/-- `SimData::distance_sqr_between`; indexing `positions[id]` out of range is
a panic (`none`).  Note that the source applies the minimum-image reduction
`min(d, |d - L|)` on both axes unconditionally, never consulting the
topology. -/
def distance_sqr_between (sd : SimData) (id1 id2 : ℕ) : Option ℚ := do
  let r1 ← sd.positions.get? id1
  let r2 ← sd.positions.get? id2
  let dx := |r1.x - r2.x|
  let dx := min dx |dx - sd.width|
  let dy := |r1.y - r2.y|
  let dy := min dy |dy - sd.height|
  pure (dx * dx + dy * dy)

/-- One iteration of the `SimData::canonical_positions` loop: canonicalize
`positions[i]` in place (indexing out of range or a failed assertion inside
`canonical_position` is `none`). -/
def canonicalStep (s : SimData) (i : ℕ) : Option SimData := do
  let p ← s.positions.get? i
  let q ← s.topology.canonical_position p.x p.y s.bounds
  pure { s with positions := s.positions.set i ⟨q.1, q.2⟩ }

/-- `SimData::canonical_positions`: for `i in 0..num_particles`, replace
`positions[i]` by its canonical position (any panic propagates as `none`). -/
def canonical_positions (sd : SimData) : Option SimData :=
  (List.range sd.num_particles).foldlM canonicalStep sd

end SimData

/-- `Cell` of `linked_cells.rs`. -/
structure Cell where
  particle_ids : List ℕ
deriving DecidableEq, Repr

/-- `LinkedCells` of `linked_cells.rs`. -/
structure LinkedCells where
  num_x : ℕ
  num_y : ℕ
  cells : List Cell
  bounds : Bounds
  cell_width : ℚ
  cell_height : ℚ
deriving DecidableEq, Repr

namespace LinkedCells

/-- `LinkedCells::new`; the `panic!` for `target_size <= 0` is `none`. -/
def new (bounds : Bounds) (target_size : ℚ) : Option LinkedCells :=
  if target_size ≤ 0 then none
  else
    let num_x := max 1 (⌊bounds.width / target_size⌋).toNat
    let num_y := max 1 (⌊bounds.height / target_size⌋).toNat
    let num_cells := num_x * num_y
    some { num_x := num_x, num_y := num_y,
           cells := List.replicate num_cells ⟨[]⟩,
           bounds := bounds,
           cell_width := bounds.width / (num_x : ℚ),
           cell_height := bounds.height / (num_y : ℚ) }

/-- `LinkedCells::new_for_simdata`. -/
def new_for_simdata (sd : SimData) (target_size : ℚ) : Option LinkedCells :=
  new sd.bounds target_size

/-- `LinkedCells::get_cell`.  The source's in-range `.expect` panic (a
missing cell despite valid indices) is also `none` here; it cannot fire on
any structure whose `cells` list has its constructed length
`num_x * num_y`. -/
def get_cell (lc : LinkedCells) (x y : ℕ) : Option Cell :=
  if lc.num_x ≤ x ∨ lc.num_y ≤ y then none
  else lc.cells.get? (lc.num_x * y + x)

/-- `LinkedCells::get_adjusted_cell`.  `-dx as usize` on a negative `i32` is
`(-dx).toNat`; the final `(x as i32 + dx) as usize` is `Int.toNat` — the two
differ from Rust's wrapping cast only on negative values, which the guards
make unreachable. -/
def get_adjusted_cell (lc : LinkedCells) (x y : ℕ) (dx dy : ℤ) : Option Cell :=
  if (dx < 0 ∧ x < (-dx).toNat) ∨ (dy < 0 ∧ y < (-dy).toNat) ∨
      (0 < dx ∧ lc.num_x < x + dx.toNat) ∨ (0 < dy ∧ lc.num_y < y + dy.toNat) then
    none
  else
    lc.get_cell ((x : ℤ) + dx).toNat ((y : ℤ) + dy).toNat

/-- `LinkedCells::get_cell_indices`: the `as usize` casts of the scaled
offsets (truncation towards zero saturating at 0 = floor-then-toNat). -/
def get_cell_indices (lc : LinkedCells) (x y : ℚ) : ℕ × ℕ :=
  ((⌊(x - lc.bounds.xlo) / lc.cell_width⌋).toNat,
    (⌊(y - lc.bounds.ylo) / lc.cell_height⌋).toNat)

/-- `LinkedCells::add_particle`: bin the position and push `id`; the
`.expect` on a missing cell (position outside the grid) is `none`. -/
def add_particle (lc : LinkedCells) (position : Vec2) (id : ℕ) :
    Option LinkedCells :=
  let ix := (lc.get_cell_indices position.x position.y).1
  let iy := (lc.get_cell_indices position.x position.y).2
  if lc.num_x ≤ ix ∨ lc.num_y ≤ iy then none
  else do
    let cell ← lc.cells.get? (lc.num_x * iy + ix)
    pure { lc with cells := lc.cells.set (lc.num_x * iy + ix) ⟨cell.particle_ids ++ [id]⟩ }

/-- The `for ix in 0..num_x { for iy in 0..num_y { .. } }` cell enumeration
order of `create_verlet_lists`, as a flat list of index pairs. -/
def cellOrder (lc : LinkedCells) : List (ℕ × ℕ) :=
  (List.range lc.num_x).flatMap (fun ix => (List.range lc.num_y).map (fun iy => (ix, iy)))

end LinkedCells

/-- `VerletLists` of `verlet_lists.rs`. -/
structure VerletLists where
  verlet_lists : List (ℕ × List ℕ)
  num_pairs : ℕ
deriving DecidableEq, Repr

/-- The `From<Vec<(usize, Vec<usize>)>>` conversion: stores the list and
counts the secondary entries. -/
def VerletLists.fromList (value : List (ℕ × List ℕ)) : VerletLists :=
  { verlet_lists := value
    num_pairs := value.foldl (fun sum x => sum + x.2.length) 0 }

/-- One call of `VLIter::next`, on state `(head_count, secondary_count)`.
`none` models a panicking call — the unconditional `vl[head].1[secondary]`
indexing after advancing to an empty inner list; `some none` is an exhausted
iterator; `some (some (item, s'))` yields `item` and moves to state `s'`. -/
def vlNext (vl : List (ℕ × List ℕ)) (head_count secondary_count : ℕ) :
    Option (Option ((ℕ × ℕ) × ℕ × ℕ)) :=
  if head_count = vl.length then some none
  else
    match vl.get? head_count with
    | none => none
    | some e =>
      if secondary_count < e.2.length then
        match e.2.get? secondary_count with
        | none => none
        | some id2 => some (some ((e.1, id2), head_count, secondary_count + 1))
      else
        if head_count + 1 = vl.length then some none
        else
          match vl.get? (head_count + 1) with
          | none => none
          | some e2 =>
            match e2.2.get? 0 with
            | none => none
            | some id2 => some (some ((e2.1, id2), head_count + 1, 1))

/-- Collect the iterator's yields, with explicit fuel (`none` both when a
call panics and when the fuel runs out before exhaustion). -/
def vlRun (vl : List (ℕ × List ℕ)) : ℕ → ℕ → ℕ → Option (List (ℕ × ℕ))
  | 0, _, _ => none
  | fuel + 1, hc, sc =>
    match vlNext vl hc sc with
    | none => none
    | some none => some []
    | some (some (item, s)) => (vlRun vl fuel s.1 s.2).map (item :: ·)

/-- The flat pair sequence `[(id1, id2) | (id1, l) ∈ v, id2 ∈ l]` in stored
order — what the flat iterator is meant to yield. -/
def flatPairs (v : List (ℕ × List ℕ)) : List (ℕ × ℕ) :=
  v.flatMap (fun e => e.2.map (fun id2 => (e.1, id2)))

/-- What the iterator still has to yield from state
`(head_count, secondary_count)`: the rest of the current entry, then the
flattening of the remaining entries (proof-support definition). -/
def vlRemaining (v : List (ℕ × List ℕ)) (head_count secondary_count : ℕ) :
    List (ℕ × ℕ) :=
  match v.get? head_count with
  | none => []
  | some e => (e.2.drop secondary_count).map (fun id2 => (e.1, id2)) ++
      flatPairs (v.drop (head_count + 1))

/-- `check_neighbors` of `verlet_lists.rs`: scan the candidate ids, pushing
each one that passes the distance test onto `neighbors`. -/
def check_neighbors (id1 : ℕ) (ids_to_check : List ℕ) (sd : SimData)
    (neighbors : List ℕ) (cutoff : ℚ) : Option (List ℕ) :=
  match ids_to_check with
  | [] => some neighbors
  | id2 :: rest => do
      let rsqr ← sd.distance_sqr_between id1 id2
      let ra ← sd.radii.get? id1
      let rb ← sd.radii.get? id2
      let rdiff := ra + rb + cutoff
      check_neighbors id1 rest sd
        (if rsqr < rdiff * rdiff then neighbors ++ [id2] else neighbors) cutoff

/-- The fold `radii.iter().fold(f64::NAN, f64::max)` of `create_verlet_lists`:
`f64::max` ignores a NaN argument, so the NaN seed is modelled as `none`; the
result is `none` exactly for the empty list (the all-NaN case, unreachable
behind the `is_empty` early return). -/
def foldMaxNan (l : List ℚ) : Option ℚ :=
  l.foldl (fun acc x => some (match acc with | none => x | some a => max a x)) none

/-- One `if let Some(cell) = linked_cells.get_adjusted_cell(..)` block of
`create_verlet_lists`: an absent neighbor cell is skipped, a present one is
scanned by `check_neighbors`. -/
def stencilStep (lc : LinkedCells) (sd : SimData) (cutoff : ℚ) (ix iy : ℕ)
    (dx dy : ℤ) (id1 : ℕ) (neighbors : List ℕ) : Option (List ℕ) :=
  match lc.get_adjusted_cell ix iy dx dy with
  | none => some neighbors
  | some cell => check_neighbors id1 cell.particle_ids sd neighbors cutoff

/-- The `for i in 0..cell.particle_ids.len()` loop of `create_verlet_lists`,
rendered as structural recursion on the cell's id list: the particle at slot
`i` is the head and the same-cell candidates `particle_ids[i+1..]` are the
tail.  Stencil order as in the source: `(-1,1), (0,1), (1,1), (-1,0)`, then
the same-cell suffix; an entry is emitted only for a non-empty result. -/
def cellLoop (lc : LinkedCells) (sd : SimData) (cutoff : ℚ) (ix iy : ℕ) :
    List ℕ → Option (List (ℕ × List ℕ))
  | [] => some []
  | id1 :: rest => do
      let n1 ← stencilStep lc sd cutoff ix iy (-1) 1 id1 []
      let n2 ← stencilStep lc sd cutoff ix iy 0 1 id1 n1
      let n3 ← stencilStep lc sd cutoff ix iy 1 1 id1 n2
      let n4 ← stencilStep lc sd cutoff ix iy (-1) 0 id1 n3
      let neighbors ← check_neighbors id1 rest sd n4 cutoff
      let tail ← cellLoop lc sd cutoff ix iy rest
      pure ((if neighbors = [] then [] else [(id1, neighbors)]) ++ tail)

/-- `create_verlet_lists` of `verlet_lists.rs`: early return on an empty
store, bin all particles into a `LinkedCells` sized by the maximum radius,
then enumerate candidate pairs cell by cell (the nested index loops are
rendered as `mapM` over the enumeration order plus `flatten`). -/
def create_verlet_lists (sd : SimData) (cutoff : ℚ) : Option VerletLists :=
  if sd.is_empty then some (VerletLists.fromList [])
  else do
    let max_radius ← foldMaxNan sd.radii
    let lc0 ← LinkedCells.new_for_simdata sd max_radius
    let lc ← (List.range sd.num_particles).foldlM
      (fun lc id => do
        let p ← sd.positions.get? id
        lc.add_particle p id)
      lc0
    let ess ← lc.cellOrder.mapM (fun c => do
      let cell ← lc.get_cell c.1 c.2
      cellLoop lc sd cutoff c.1 c.2 cell.particle_ids)
    pure (VerletLists.fromList ess.flatten)

/-- The cell a particle id is binned to by `create_verlet_lists` — the
`get_cell_indices` of its position (proof-support definition; total via a
zero default that is never consulted for valid ids). -/
def binKey (lc : LinkedCells) (sd : SimData) (id : ℕ) : ℕ × ℕ :=
  lc.get_cell_indices (sd.positions.getD id Vec2.zero).x
    (sd.positions.getD id Vec2.zero).y

/-- The id list stored in cell `(cx, cy)` (proof-support definition; an
empty-cell default that is never consulted in range). -/
def cellList (lc : LinkedCells) (cx cy : ℕ) : List ℕ :=
  (lc.cells.getD (lc.num_x * cy + cx) ⟨[]⟩).particle_ids

/-- The half-neighborhood stencil offsets, in the order the source visits
them. -/
def stencilOffsets : List (ℤ × ℤ) := [(-1, 1), (0, 1), (1, 1), (-1, 0)]

/-- The relation between a list head `a` and a candidate `b` that
`create_verlet_lists` can pair: `b` lives in a stencil-offset cell of `a`'s
cell, or in the same cell with a larger id (proof-support definition). -/
def pairRel (lc : LinkedCells) (sd : SimData) (a b : ℕ) : Prop :=
  (∃ off ∈ stencilOffsets,
      ((binKey lc sd b).1 : ℤ) = (binKey lc sd a).1 + off.1 ∧
      ((binKey lc sd b).2 : ℤ) = (binKey lc sd a).2 + off.2) ∨
  (binKey lc sd b = binKey lc sd a ∧ a < b)

/-- `HardSphereForce` of `force.rs`. -/
structure HardSphereForce where
  repulsion : ℚ
deriving DecidableEq, Repr

/-- `HardSphereForce::calculate_forces` (`sqrtf` models `f64::sqrt`): on
overlap, `overlap = Σ − sqrt(Σ)` exactly as the source computes it, and the
impulse `unit * repulsion * overlap` is subtracted at `id1` then added at
`id2`. -/
def HardSphereForce.calculate_forces (hsf : HardSphereForce) (sqrtf : ℚ → ℚ)
    (sd : SimData) (id1 id2 : ℕ) : Option SimData := do
  let rsqr ← sd.distance_sqr_between id1 id2
  let ra ← sd.radii.get? id1
  let rb ← sd.radii.get? id2
  let sum_radii := ra + rb
  if rsqr < sum_radii * sum_radii then do
    let overlap := sum_radii - sqrtf sum_radii
    let p1 ← sd.positions.get? id1
    let p2 ← sd.positions.get? id2
    let unit := Vec2.normalize sqrtf (p2 - p1)
    let f1 ← sd.forces.get? id1
    let forces1 := sd.forces.set id1 (f1 - (unit.smul hsf.repulsion).smul overlap)
    let f2 ← forces1.get? id2
    pure { sd with forces := forces1.set id2 (f2 + (unit.smul hsf.repulsion).smul overlap) }
  else pure sd

/-- `force_loop` of `force.rs`, instantiated at the only `Force`
implementation (`HardSphereForce`): zero every entry of the force buffer,
then run `calculate_forces` on each pair of the iterator (a pair list). -/
def force_loop (hsf : HardSphereForce) (sqrtf : ℚ → ℚ) (sd : SimData)
    (pairs : List (ℕ × ℕ)) : Option SimData :=
  pairs.foldlM (fun s pr => hsf.calculate_forces sqrtf s pr.1 pr.2)
    { sd with forces := sd.forces.map (fun _ => Vec2.zero) }

/-- `PositionMonitor` of `monitor.rs`. -/
structure PositionMonitor where
  times : List ℚ
  positions : List (List Vec2)
  snapshot_delay : ℚ
  last_snapshot_time : Option ℚ
deriving DecidableEq, Repr

/-- `PositionMonitor::new`. -/
def PositionMonitor.new (snapshot_delay : ℚ) : PositionMonitor :=
  { times := [], positions := [], snapshot_delay := snapshot_delay,
    last_snapshot_time := none }

/-- `PositionMonitor::post_step` exactly as written in the source: when no
snapshot was recorded yet, or the delay has elapsed, push a copy of the first
`num_particles` positions — and nothing else (the source never writes
`times` or `last_snapshot_time`). -/
def PositionMonitor.post_step (m : PositionMonitor) (sd : SimData) :
    Option PositionMonitor :=
  let cond := match m.last_snapshot_time with
    | none => true
    | some t => decide (m.snapshot_delay < sd.simulation_time - t)
  if cond then do
    let new_positions ← (List.range sd.num_particles).mapM
      (fun i => sd.positions.get? i)
    pure { m with positions := m.positions ++ [new_positions] }
  else pure m

/-- Whether the topology wraps the x axis, following the spec's reading of
the `Topology` variant (`Open` wraps nothing). -/
def Topology.wrapsX : Topology → Bool
  | .openTopology => false
  | .harmonicTopology wx _ => wx

/-- Whether the topology wraps the y axis. -/
def Topology.wrapsY : Topology → Bool
  | .openTopology => false
  | .harmonicTopology _ wy => wy

/-- The distance formula as §4.2 of the spec words it, for comparison with
the source's `distance_sqr_between`: on a wrapped axis the axial distance is
`min(|d|, L − |d|)`, on an unwrapped axis it is `|d|`. -/
def spec_distance_sqr_between (sd : SimData) (id1 id2 : ℕ) : Option ℚ := do
  let r1 ← sd.positions.get? id1
  let r2 ← sd.positions.get? id2
  let dx := if sd.topology.wrapsX then min |r1.x - r2.x| (sd.width - |r1.x - r2.x|)
            else |r1.x - r2.x|
  let dy := if sd.topology.wrapsY then min |r1.y - r2.y| (sd.height - |r1.y - r2.y|)
            else |r1.y - r2.y|
  pure (dx * dx + dy * dy)

/-- The spec's §3 notion of a point being in bounds: the half-open box
`[xlo, xhi) × [ylo, yhi)` (low-inclusive on both axes). -/
def inBoundsSpec (b : Bounds) (p : Vec2) : Prop :=
  b.xlo ≤ p.x ∧ p.x < b.xhi ∧ b.ylo ≤ p.y ∧ p.y < b.yhi

instance (b : Bounds) (p : Vec2) : Decidable (inBoundsSpec b p) := by
  unfold inBoundsSpec; infer_instance

/-- Two-particle in-bounds store with distinct cells and a positive maximum
radius, for the neighbor-list witness. -/
def simdataC1 : SimData :=
  { radii := [1, 1], masses := [1, 1], positions := [⟨1, 1⟩, ⟨2, 1⟩],
    velocities := [0, 0], forces := [0, 0], bounds := ⟨0, 4, 0, 4⟩,
    topology := .harmonicTopology true true, simulation_time := 0 }

/-- An empty store with bounds `(0, 1, 0, 1)`, used as a concrete base. -/
def emptySim : SimData :=
  { radii := [], masses := [], positions := [], velocities := [], forces := [],
    bounds := ⟨0, 1, 0, 1⟩, topology := .harmonicTopology true true,
    simulation_time := 0 }

/-- Open-topology store with two particles at `(0,0)` and `(9,0)` in the box
`(0,10) × (0,10)`, for the distance counterexample. -/
def simdataC4 : SimData :=
  { radii := [1, 1], masses := [1, 1], positions := [⟨0, 0⟩, ⟨9, 0⟩],
    velocities := [0, 0], forces := [0, 0], bounds := ⟨0, 10, 0, 10⟩,
    topology := .openTopology, simulation_time := 0 }

/-- One-particle store at simulation time `0.01`, for the monitor check. -/
def simdataC6 : SimData :=
  { radii := [1], masses := [1], positions := [⟨1, 1⟩], velocities := [0],
    forces := [0], bounds := ⟨0, 10, 0, 10⟩,
    topology := .harmonicTopology true true, simulation_time := 1/100 }

/-- Two-particle overlapping store with a dirty force buffer, for the
Newton's-third-law witness. -/
def simdataC3 : SimData :=
  { radii := [1, 1], masses := [1, 1], positions := [⟨0, 0⟩, ⟨1, 0⟩],
    velocities := [0, 0], forces := [⟨5, 5⟩, ⟨2, 1⟩], bounds := ⟨0, 10, 0, 10⟩,
    topology := .harmonicTopology true true, simulation_time := 0 }

/-- Vector addition, componentwise. -/
@[simp] theorem Vec2.add_def (a b : Vec2) : a + b = ⟨a.x + b.x, a.y + b.y⟩ := rfl

/-- Vector subtraction, componentwise. -/
@[simp] theorem Vec2.sub_def (a b : Vec2) : a - b = ⟨a.x - b.x, a.y - b.y⟩ := rfl

/-- The zero vector's components. -/
@[simp] theorem Vec2.zero_def : (0 : Vec2) = ⟨0, 0⟩ := rfl

/-- Vector negation, componentwise. -/
@[simp] theorem Vec2.neg_def (a : Vec2) : -a = ⟨-a.x, -a.y⟩ := rfl

/-- Scalar multiplications compose: `(v * a) * b = v * (a * b)`. -/
theorem Vec2.smul_smul (v : Vec2) (a b : ℚ) : (v.smul a).smul b = v.smul (a * b) := by
  unfold Vec2.smul
  ext <;> (show _ = _; ring)

/-- C8, counterexample: with bounds `(0, 1, 0, 1)` and the point
`(1/2, 1)` on the top edge, `is_in_bounds` returns `true`, though the
claimed half-open condition `ylo ≤ y < yhi` is false there. -/
theorem C8_counterexample :
    Bounds.is_in_bounds ⟨0, 1, 0, 1⟩ ⟨1/2, 1⟩ = true ∧
      ¬ ((0 : ℚ) ≤ 1/2 ∧ (1/2 : ℚ) < 1 ∧ (0 : ℚ) ≤ 1 ∧ (1 : ℚ) < 1) := by
  constructor
  · with_unfolding_all decide
  · intro h
    exact absurd h.2.2.2 (by norm_num)

/-- C8, amended: for every bounds with `xlo < xhi` and `ylo < yhi`,
`is_in_bounds` returns `true` iff `xlo ≤ x < xhi ∧ ylo ≤ y ≤ yhi` — half-open
and low-inclusive in `x` but closed at the top in `y` (the source compares
`position.y <= self.yhi`). -/
theorem C8_is_in_bounds_iff (b : Bounds) (p : Vec2)
    (hx : b.xlo < b.xhi) (hy : b.ylo < b.yhi) :
    b.is_in_bounds p = true ↔
      (b.xlo ≤ p.x ∧ p.x < b.xhi ∧ b.ylo ≤ p.y ∧ p.y ≤ b.yhi) := by
  simp [Bounds.is_in_bounds, and_assoc]

/-- C8 witness: the amended equivalence applied at bounds `(0,1,0,1)` and the
point `(0, 1)`. -/
theorem C8_is_in_bounds_iff_witness :
    Bounds.is_in_bounds ⟨0, 1, 0, 1⟩ ⟨0, 1⟩ = true ↔
      ((0 : ℚ) ≤ 0 ∧ (0 : ℚ) < 1 ∧ (0 : ℚ) ≤ 1 ∧ (1 : ℚ) ≤ 1) :=
  C8_is_in_bounds_iff ⟨0, 1, 0, 1⟩ ⟨0, 1⟩ (by norm_num) (by norm_num)

/-- C7, counterexample: `add_particle` on a particle whose `force` field is
`(1, 2)` appends the force `(1, 2)`, not the zero vector. -/
theorem C7_counterexample :
    (emptySim.add_particle
        { position := Vec2.zero, radius := 1, mass := 1, velocity := Vec2.zero,
          force := ⟨1, 2⟩ }).forces.get? 0 = some ⟨1, 2⟩ ∧
      (⟨1, 2⟩ : Vec2) ≠ (0 : Vec2) := by
  constructor
  · rfl
  · with_unfolding_all decide

/-- C7, amended: `add_particle` appends the particle's radius, mass,
position and velocity and its `force` field as given (zero only when the
particle's force is zero), while `add_particles` appends each particle's
radius, mass, position and velocity but always a zero force. -/
theorem C7_append_fields (sd : SimData) (p : Particle) (ps : List Particle) :
    ((sd.add_particle p).radii = sd.radii ++ [p.radius] ∧
      (sd.add_particle p).masses = sd.masses ++ [p.mass] ∧
      (sd.add_particle p).positions = sd.positions ++ [p.position] ∧
      (sd.add_particle p).velocities = sd.velocities ++ [p.velocity] ∧
      (sd.add_particle p).forces = sd.forces ++ [p.force]) ∧
    ((sd.add_particles ps).radii = sd.radii ++ ps.map Particle.radius ∧
      (sd.add_particles ps).masses = sd.masses ++ ps.map Particle.mass ∧
      (sd.add_particles ps).positions = sd.positions ++ ps.map Particle.position ∧
      (sd.add_particles ps).velocities = sd.velocities ++ ps.map Particle.velocity ∧
      (sd.add_particles ps).forces = sd.forces ++ ps.map (fun _ => Vec2.zero)) := by
  refine ⟨⟨rfl, rfl, rfl, rfl, rfl⟩, ?_⟩
  induction ps generalizing sd with
  | nil => simp [SimData.add_particles]
  | cons q qs ih =>
      have h := ih { sd with
        radii := sd.radii ++ [q.radius]
        masses := sd.masses ++ [q.mass]
        positions := sd.positions ++ [q.position]
        velocities := sd.velocities ++ [q.velocity]
        forces := sd.forces ++ [Vec2.zero] }
      simpa [SimData.add_particles, List.append_assoc] using h

/-- C4, counterexample: under the `Open` topology (no axis wraps) the claim
says the axial distances are plain `|d|`, giving `81`; the source applies the
minimum-image reduction regardless of topology and returns `1`. -/
theorem C4_counterexample :
    simdataC4.distance_sqr_between 0 1 = some 1 ∧
      spec_distance_sqr_between simdataC4 0 1 = some 81 ∧ (1 : ℚ) ≠ 81 := by
  refine ⟨?_, ?_, by norm_num⟩
  · with_unfolding_all decide
  · with_unfolding_all decide

/-- C4, amended: `distance_sqr_between` applies the reduction
`min(|d|, | |d| − L |)` on both axes unconditionally — the topology's wrap
flags are never consulted and the `|d|`-only branch does not exist; moreover
when both endpoints lie in the spec's half-open bounds box this reduction
coincides with the spec's wrapped formula `min(|d|, L − |d|)` on both axes. -/
theorem C4_distance_sqr_minimum_image (sd : SimData) (id1 id2 : ℕ) (r1 r2 : Vec2)
    (h1 : sd.positions.get? id1 = some r1) (h2 : sd.positions.get? id2 = some r2) :
    sd.distance_sqr_between id1 id2 =
      some (min |r1.x - r2.x| |(|r1.x - r2.x|) - sd.width| *
              min |r1.x - r2.x| |(|r1.x - r2.x|) - sd.width| +
            min |r1.y - r2.y| |(|r1.y - r2.y|) - sd.height| *
              min |r1.y - r2.y| |(|r1.y - r2.y|) - sd.height|) ∧
    (inBoundsSpec sd.bounds r1 → inBoundsSpec sd.bounds r2 →
      sd.distance_sqr_between id1 id2 =
        some (min |r1.x - r2.x| (sd.width - |r1.x - r2.x|) *
                min |r1.x - r2.x| (sd.width - |r1.x - r2.x|) +
              min |r1.y - r2.y| (sd.height - |r1.y - r2.y|) *
                min |r1.y - r2.y| (sd.height - |r1.y - r2.y|))) := by
  have hbase : sd.distance_sqr_between id1 id2 =
      some (min |r1.x - r2.x| |(|r1.x - r2.x|) - sd.width| *
              min |r1.x - r2.x| |(|r1.x - r2.x|) - sd.width| +
            min |r1.y - r2.y| |(|r1.y - r2.y|) - sd.height| *
              min |r1.y - r2.y| |(|r1.y - r2.y|) - sd.height|) := by
    rw [List.get?_eq_getElem?] at h1 h2
    simp [SimData.distance_sqr_between, h1, h2]
  refine ⟨hbase, fun hb1 hb2 => ?_⟩
  obtain ⟨hx1, hx1', hy1, hy1'⟩ := hb1
  obtain ⟨hx2, hx2', hy2, hy2'⟩ := hb2
  have hax : |r1.x - r2.x| < sd.width := by
    unfold SimData.width Bounds.width
    exact abs_sub_lt_iff.mpr ⟨by linarith, by linarith⟩
  have hay : |r1.y - r2.y| < sd.height := by
    unfold SimData.height Bounds.height
    exact abs_sub_lt_iff.mpr ⟨by linarith, by linarith⟩
  have ex : |(|r1.x - r2.x|) - sd.width| = sd.width - |r1.x - r2.x| := by
    rw [abs_of_neg (by linarith)]; ring
  have ey : |(|r1.y - r2.y|) - sd.height| = sd.height - |r1.y - r2.y| := by
    rw [abs_of_neg (by linarith)]; ring
  rw [hbase, ex, ey]

/-- C4 witness: the amended distance characterization applied to the two
concrete in-bounds positions of `simdataC4`. -/
theorem C4_distance_witness :
    simdataC4.distance_sqr_between 0 1 =
      some (min |(0 : ℚ) - 9| (simdataC4.width - |(0 : ℚ) - 9|) *
              min |(0 : ℚ) - 9| (simdataC4.width - |(0 : ℚ) - 9|) +
            min |(0 : ℚ) - 0| (simdataC4.height - |(0 : ℚ) - 0|) *
              min |(0 : ℚ) - 0| (simdataC4.height - |(0 : ℚ) - 0|)) :=
  (C4_distance_sqr_minimum_image simdataC4 0 1 ⟨0, 0⟩ ⟨9, 0⟩ rfl rfl).2
    (by norm_num [inBoundsSpec, simdataC4]) (by norm_num [inBoundsSpec, simdataC4])

/-- C6: divergence of the source from the claim, at the failing input
`PositionMonitor(0.05)` with `post_step` at times `0.01` and then `0.02`.
The claim says the first call appends `0.01` to `times`, sets
`last_snapshot_time := 0.01`, and the second call (gap `0.01 ≤ 0.05`) changes
nothing; the source instead appends a second snapshot and never writes
`times` or `last_snapshot_time`. -/
theorem C6_monitor_divergence :
    ((PositionMonitor.new (1/20)).post_step simdataC6).bind
        (fun m1 => m1.post_step { simdataC6 with simulation_time := 2/100 }) =
      some { times := [], positions := [[⟨1, 1⟩], [⟨1, 1⟩]],
             snapshot_delay := 1/20, last_snapshot_time := none } := by
  with_unfolding_all decide

/-- C9: for a bounds box of positive width and height,
`LinkedCells::new(bounds, target_size)` fails (the `panic!`, modelled as
`none`) exactly when `target_size ≤ 0`; for `target_size > 0` it returns a
structure with `num_x = max(1, ⌊width/target_size⌋)`,
`num_y = max(1, ⌊height/target_size⌋)` and `num_x · num_y` cells. -/
theorem C9_linked_cells_new (bounds : Bounds) (target_size : ℚ)
    (hw : 0 < bounds.width) (hh : 0 < bounds.height) :
    (LinkedCells.new bounds target_size = none ↔ target_size ≤ 0) ∧
    (0 < target_size →
      ∃ lc, LinkedCells.new bounds target_size = some lc ∧
        lc.num_x = max 1 (⌊bounds.width / target_size⌋).toNat ∧
        lc.num_y = max 1 (⌊bounds.height / target_size⌋).toNat ∧
        (lc.num_x : ℤ) = max 1 ⌊bounds.width / target_size⌋ ∧
        (lc.num_y : ℤ) = max 1 ⌊bounds.height / target_size⌋ ∧
        lc.cells.length = lc.num_x * lc.num_y) := by
  constructor
  · unfold LinkedCells.new
    split_ifs with h
    · simp [h]
    · simp [h]
  · intro hts
    have hx0 : 0 ≤ ⌊bounds.width / target_size⌋ :=
      Int.floor_nonneg.mpr (div_nonneg hw.le hts.le)
    have hy0 : 0 ≤ ⌊bounds.height / target_size⌋ :=
      Int.floor_nonneg.mpr (div_nonneg hh.le hts.le)
    rw [LinkedCells.new, if_neg (not_le.mpr hts)]
    refine ⟨_, rfl, rfl, rfl, ?_, ?_, by simp⟩
    · push_cast [Int.toNat_of_nonneg hx0]
      rfl
    · push_cast [Int.toNat_of_nonneg hy0]
      rfl

/-- C9 witness: `LinkedCells::new` on bounds `(0, 10, 0, 10)` with target
size `3` (a `3 × 3` grid, 9 cells). -/
theorem C9_linked_cells_new_witness :
    (LinkedCells.new ⟨0, 10, 0, 10⟩ 3 = none ↔ (3 : ℚ) ≤ 0) ∧
    ((0 : ℚ) < 3 →
      ∃ lc, LinkedCells.new ⟨0, 10, 0, 10⟩ 3 = some lc ∧
        lc.num_x = max 1 (⌊Bounds.width ⟨0, 10, 0, 10⟩ / 3⌋).toNat ∧
        lc.num_y = max 1 (⌊Bounds.height ⟨0, 10, 0, 10⟩ / 3⌋).toNat ∧
        (lc.num_x : ℤ) = max 1 ⌊Bounds.width ⟨0, 10, 0, 10⟩ / 3⌋ ∧
        (lc.num_y : ℤ) = max 1 ⌊Bounds.height ⟨0, 10, 0, 10⟩ / 3⌋ ∧
        lc.cells.length = lc.num_x * lc.num_y) :=
  C9_linked_cells_new ⟨0, 10, 0, 10⟩ 3 (by norm_num [Bounds.width])
    (by norm_num [Bounds.height])

/-- `wrapLow` does nothing when the coordinate is not below the threshold. -/
theorem wrapLow_eq_self {lo w x : ℚ} (h : ¬ x < lo) : wrapLow lo w x = x := by
  rw [wrapLow]
  simp [h]

/-- `wrapHigh` does nothing when the coordinate is not above the threshold. -/
theorem wrapHigh_eq_self {hi w x : ℚ} (h : ¬ hi < x) : wrapHigh hi w x = x := by
  rw [wrapHigh]
  simp [h]

/-- A successful `HarmonicTopology::canonical_position` has passed the final
`assert!`, so its result satisfies `is_in_bounds`. -/
theorem harmonicCanonicalPosition_is_in_bounds {wx wy : Bool} {x y : ℚ}
    {b : Bounds} {x' y' : ℚ}
    (h : harmonicCanonicalPosition wx wy x y b = some (x', y')) :
    b.is_in_bounds ⟨x', y'⟩ = true := by
  cases wx <;> cases wy <;>
    simp only [harmonicCanonicalPosition, Option.ite_none_right_eq_some,
      Option.some.injEq, Prod.mk.injEq, Bool.false_eq_true, if_true, if_false,
      ite_true, ite_false] at h <;>
    obtain ⟨hc, h1, h2⟩ := h <;> rw [← h1, ← h2] <;> exact hc

/-- Invariant of the `canonical_positions` loop over an index list: the
bounds, topology and array length are preserved, untouched slots keep their
values, and under a harmonic topology every processed slot holds a point
that passed the `is_in_bounds` assertion. -/
theorem canonical_fold_aux (wx wy : Bool) (l : List ℕ) :
    ∀ s s' : SimData, l.Nodup → s.topology = .harmonicTopology wx wy →
      l.foldlM SimData.canonicalStep s = some s' →
      s'.bounds = s.bounds ∧ s'.topology = s.topology ∧
        s'.positions.length = s.positions.length ∧
        (∀ j, j ∉ l → s'.positions[j]? = s.positions[j]?) ∧
        (∀ j ∈ l, ∀ q, s'.positions[j]? = some q →
          s.bounds.is_in_bounds q = true) := by
  induction l with
  | nil =>
      intro s s' _ _ h
      rw [List.foldlM_nil] at h
      obtain rfl : s = s' := by simpa using h
      exact ⟨rfl, rfl, rfl, fun j _ => rfl, fun j hj => absurd hj (List.not_mem_nil j)⟩
  | cons i rest ih =>
      intro s s' hnd htop h
      rw [List.foldlM_cons] at h
      obtain ⟨s1, h1, h2⟩ := Option.bind_eq_some.mp h
      unfold SimData.canonicalStep at h1
      obtain ⟨p, hp, h1'⟩ := Option.bind_eq_some.mp h1
      obtain ⟨q, hq, h1''⟩ := Option.bind_eq_some.mp h1'
      obtain rfl : s1 = ({ s with positions := s.positions.set i ⟨q.1, q.2⟩ } : SimData) := by
        simpa using h1''.symm
      rw [List.get?_eq_getElem?] at hp
      have hilt : i < s.positions.length := by
        rcases List.getElem?_eq_some_iff.mp hp with ⟨h', _⟩
        exact h'
      have hinb : s.bounds.is_in_bounds ⟨q.1, q.2⟩ = true := by
        rw [htop] at hq
        exact harmonicCanonicalPosition_is_in_bounds hq
      obtain ⟨hnd1, hnd2⟩ := List.nodup_cons.mp hnd
      obtain ⟨hB, hT, hL, hOut, hIn⟩ := ih _ s' hnd2 (by simpa using htop) h2
      refine ⟨hB, hT, hL.trans (by simp), ?_, ?_⟩
      · intro j hj
        have hj1 : j ≠ i := fun e => hj (e ▸ List.mem_cons_self i rest)
        have hj2 : j ∉ rest := fun e => hj (List.mem_cons_of_mem i e)
        rw [hOut j hj2]
        simpa using List.getElem?_set_ne (Ne.symm hj1) (a := (⟨q.1, q.2⟩ : Vec2))
          (l := s.positions)
      · intro j hj q' hq'
        rcases List.mem_cons.mp hj with rfl | hjr
        · have : s'.positions[j]? = some (⟨q.1, q.2⟩ : Vec2) := by
            rw [hOut j hnd1]
            simpa using List.getElem?_set_self (l := s.positions)
              (a := (⟨q.1, q.2⟩ : Vec2)) hilt
          rw [this] at hq'
          obtain rfl : (⟨q.1, q.2⟩ : Vec2) = q' := by simpa using hq'
          exact hinb
        · exact hIn j hjr q' hq'

/-- C5, counterexample: the point `(5, 10)` on the top edge of the box
`(0, 10, 0, 10)` is returned unchanged by the periodic canonicalization
(both wrap loops are never entered and the assertion passes because
`is_in_bounds` accepts `y = yhi`), yet `10` does not lie in `[0, 10)`. -/
theorem C5_counterexample :
    harmonicCanonicalPosition true true 5 10 ⟨0, 10, 0, 10⟩ = some (5, 10) ∧
      ¬ ((10 : ℚ) < 10) := by
  refine ⟨?_, by norm_num⟩
  rw [harmonicCanonicalPosition]
  rw [wrapLow_eq_self (show ¬ (5 : ℚ) < 0 by norm_num),
    wrapHigh_eq_self (show ¬ (10 : ℚ) < 5 by norm_num),
    wrapLow_eq_self (show ¬ (10 : ℚ) < 0 by norm_num),
    wrapHigh_eq_self (show ¬ (10 : ℚ) < 10 by norm_num)]
  rw [if_pos (by with_unfolding_all decide)]
  simp

/-- C5, amended: for any bounds with `xlo < xhi`, `ylo < yhi`, a successful
`HarmonicTopology::canonical_position` with both wraps enabled lands in
`[xlo, xhi) × [ylo, yhi]` — half-open in `x` but closed at the top in `y`
(the value `y = yhi` is reachable, so `[ylo, yhi)` as claimed is false);
consequently a successful `canonical_positions()` under that topology leaves
every particle position `is_in_bounds`. -/
theorem C5_canonical_in_bounds (b : Bounds) (hx : b.xlo < b.xhi)
    (hy : b.ylo < b.yhi) :
    (∀ x y x' y', harmonicCanonicalPosition true true x y b = some (x', y') →
      b.xlo ≤ x' ∧ x' < b.xhi ∧ b.ylo ≤ y' ∧ y' ≤ b.yhi) ∧
    (∀ sd sd' : SimData, sd.bounds = b →
      sd.topology = .harmonicTopology true true →
      sd.positions.length = sd.num_particles →
      sd.canonical_positions = some sd' →
      ∀ p ∈ sd'.positions, sd'.bounds.is_in_bounds p = true) := by
  constructor
  · intro x y x' y' h
    have hc := harmonicCanonicalPosition_is_in_bounds h
    simpa [Bounds.is_in_bounds, and_assoc] using hc
  · intro sd sd' _ htop hlen h
    unfold SimData.canonical_positions at h
    obtain ⟨hB, _, hL, _, hIn⟩ :=
      canonical_fold_aux true true (List.range sd.num_particles) sd sd'
        (List.nodup_range _) htop h
    intro p hp
    obtain ⟨j, hget⟩ := List.mem_iff_getElem?.mp hp
    have hjlt : j < sd.num_particles := by
      rcases List.getElem?_eq_some_iff.mp hget with ⟨h', _⟩
      rw [hL, hlen] at h'
      exact h'
    rw [hB]
    exact hIn j (List.mem_range.mpr hjlt) p hget

/-- C5 witness: the amended in-bounds guarantee applied to the interior point
`(3, 5)` of the box `(0, 10, 0, 10)`. -/
theorem C5_canonical_in_bounds_witness :
    (0 : ℚ) ≤ 3 ∧ (3 : ℚ) < 10 ∧ (0 : ℚ) ≤ 5 ∧ (5 : ℚ) ≤ 10 :=
  (C5_canonical_in_bounds ⟨0, 10, 0, 10⟩ (by norm_num) (by norm_num)).1 3 5 3 5 (by
    rw [harmonicCanonicalPosition,
      wrapLow_eq_self (show ¬ (3 : ℚ) < 0 by norm_num),
      wrapHigh_eq_self (show ¬ (10 : ℚ) < 3 by norm_num),
      wrapLow_eq_self (show ¬ (5 : ℚ) < 0 by norm_num),
      wrapHigh_eq_self (show ¬ (10 : ℚ) < 5 by norm_num),
      if_pos (by with_unfolding_all decide)]
    simp)

/-- Replacing one entry of a list changes its sum by the difference between
the new and the old value. -/
theorem sum_set_of_lt {G : Type} [AddCommGroup G] (l : List G) (i : ℕ) (v : G)
    (h : i < l.length) :
    (l.set i v).sum = l.sum - l.getD i 0 + v := by
  induction l generalizing i with
  | nil => simp at h
  | cons a tl ih =>
      cases i with
      | zero =>
          simp only [List.set_cons_zero, List.sum_cons, List.getD_cons_zero]
          abel
      | succ n =>
          have hn : n < tl.length := by simpa using h
          simp only [List.set_cons_succ, List.sum_cons, List.getD_cons_succ, ih n hn]
          abel

/-- Full functional description of one `HardSphereForce::calculate_forces`
call on in-range indices: it succeeds, touches only the force buffer,
preserves the buffer's length and (being an equal-and-opposite update)
its vector sum. -/
theorem calculate_forces_spec (hsf : HardSphereForce) (sqrtf : ℚ → ℚ)
    (s : SimData) (id1 id2 : ℕ)
    (hp1 : id1 < s.positions.length) (hp2 : id2 < s.positions.length)
    (hr1 : id1 < s.radii.length) (hr2 : id2 < s.radii.length)
    (hf1 : id1 < s.forces.length) (hf2 : id2 < s.forces.length) :
    ∃ s', hsf.calculate_forces sqrtf s id1 id2 = some s' ∧
      s'.radii = s.radii ∧ s'.masses = s.masses ∧ s'.positions = s.positions ∧
      s'.velocities = s.velocities ∧ s'.bounds = s.bounds ∧
      s'.topology = s.topology ∧ s'.simulation_time = s.simulation_time ∧
      s'.forces.length = s.forces.length ∧ s'.forces.sum = s.forces.sum := by
  unfold HardSphereForce.calculate_forces SimData.distance_sqr_between
  simp only [List.get?_eq_getElem?, List.getElem?_eq_getElem hp1,
    List.getElem?_eq_getElem hp2, List.getElem?_eq_getElem hr1,
    List.getElem?_eq_getElem hr2, List.getElem?_eq_getElem hf1,
    Option.bind_eq_bind, Option.some_bind, Option.pure_def]
  split_ifs with hlt
  · have hf2' : id2 < (s.forces.set id1
        (s.forces[id1] -
          ((Vec2.normalize sqrtf (s.positions[id2] - s.positions[id1])).smul
            hsf.repulsion).smul
            (s.radii[id1] + s.radii[id2] - sqrtf (s.radii[id1] + s.radii[id2])))).length := by
      simpa using hf2
    simp only [List.getElem?_eq_getElem hf2', Option.some_bind]

    refine ⟨_, rfl, rfl, rfl, rfl, rfl, rfl, rfl, rfl, by simp, ?_⟩
    rw [sum_set_of_lt _ _ _ (by simpa using hf2), sum_set_of_lt _ _ _ hf1]
    rw [List.getD_eq_getElem _ _ hf1, List.getD_eq_getElem _ _ hf2']
    abel
  · exact ⟨s, rfl, rfl, rfl, rfl, rfl, rfl, rfl, rfl, rfl, rfl⟩

/-- C3: after `force_loop` on any pair list with in-range indices, the
vector sum of the force buffer is exactly zero (exact arithmetic): the
buffer is zeroed first and every `calculate_forces` call adds equal and
opposite contributions. -/
theorem C3_newton_third_law (hsf : HardSphereForce) (sqrtf : ℚ → ℚ)
    (sd : SimData) (pairs : List (ℕ × ℕ))
    (hp : sd.positions.length = sd.num_particles)
    (hf : sd.forces.length = sd.num_particles)
    (hpairs : ∀ pr ∈ pairs, pr.1 < sd.num_particles ∧ pr.2 < sd.num_particles) :
    ∃ sd', force_loop hsf sqrtf sd pairs = some sd' ∧ sd'.forces.sum = 0 := by
  have main : ∀ (l : List (ℕ × ℕ)) (s : SimData),
      s.positions.length = sd.num_particles →
      s.radii = sd.radii →
      s.forces.length = sd.num_particles →
      s.forces.sum = 0 →
      (∀ pr ∈ l, pr.1 < sd.num_particles ∧ pr.2 < sd.num_particles) →
      ∃ s', l.foldlM (fun s pr => hsf.calculate_forces sqrtf s pr.1 pr.2) s = some s' ∧
        s'.forces.sum = 0 := by
    intro l
    induction l with
    | nil =>
        intro s _ _ _ h4 _
        exact ⟨s, by simp [List.foldlM_nil], h4⟩
    | cons pr rest ih =>
        intro s h1 h2 h3 h4 hl
        obtain ⟨hlt1, hlt2⟩ := hl pr (List.mem_cons_self _ _)
        obtain ⟨s1, hs1, hrad, _, hpos, _, _, _, _, hflen, hfsum⟩ :=
          calculate_forces_spec hsf sqrtf s pr.1 pr.2
            (by rw [h1]; exact hlt1) (by rw [h1]; exact hlt2)
            (by rw [h2]; exact hlt1) (by rw [h2]; exact hlt2)
            (by rw [h3]; exact hlt1) (by rw [h3]; exact hlt2)
        obtain ⟨s', hs', hsum⟩ := ih s1
          (by rw [hpos]; exact h1) (by rw [hrad]; exact h2)
          (by rw [hflen]; exact h3) (by rw [hfsum]; exact h4)
          (fun q hq => hl q (List.mem_cons_of_mem _ hq))
        refine ⟨s', ?_, hsum⟩
        rw [List.foldlM_cons, hs1]
        simpa using hs'
  have hz : ({ sd with forces := sd.forces.map fun _ => Vec2.zero } : SimData).forces.sum = 0 := by
    have : (sd.forces.map fun _ => Vec2.zero) = List.replicate sd.forces.length Vec2.zero := by
      simp [List.map_const']
    simp only [this, List.sum_replicate]
    exact smul_zero _
  exact main pairs _ (by simpa using hp) rfl (by simpa using hf) hz hpairs

/-- C3 witness: `force_loop` over the single pair `(0, 1)` on `simdataC3`. -/
theorem C3_newton_third_law_witness :
    ∃ sd', force_loop ⟨10⟩ (fun _ => 0) simdataC3 [(0, 1)] = some sd' ∧
      sd'.forces.sum = 0 :=
  C3_newton_third_law ⟨10⟩ (fun _ => 0) simdataC3 [(0, 1)] rfl rfl
    (by with_unfolding_all decide)

/-- C2: a `calculate_forces` call on distinct in-range indices succeeds,
touches nothing but the force buffer, is a no-op when
`r² ≥ (radii[i]+radii[j])²`, and otherwise subtracts
`F = repulsion · (Σ − sqrt Σ) · normalize(positions[j] − positions[i])` at
`id1` and adds it at `id2` (the overlap scalar `Σ − sqrt Σ` exactly as the
source computes it). -/
theorem C2_hard_sphere_calculate_forces (hsf : HardSphereForce) (sqrtf : ℚ → ℚ)
    (sd : SimData) (id1 id2 : ℕ) (hne : id1 ≠ id2)
    (hp1 : id1 < sd.positions.length) (hp2 : id2 < sd.positions.length)
    (hr1 : id1 < sd.radii.length) (hr2 : id2 < sd.radii.length)
    (hf1 : id1 < sd.forces.length) (hf2 : id2 < sd.forces.length) :
    ∃ sd' rsqr,
      sd.distance_sqr_between id1 id2 = some rsqr ∧
      hsf.calculate_forces sqrtf sd id1 id2 = some sd' ∧
      sd'.radii = sd.radii ∧ sd'.masses = sd.masses ∧
      sd'.positions = sd.positions ∧ sd'.velocities = sd.velocities ∧
      sd'.bounds = sd.bounds ∧ sd'.topology = sd.topology ∧
      sd'.simulation_time = sd.simulation_time ∧
      ((sd.radii.getD id1 0 + sd.radii.getD id2 0) *
          (sd.radii.getD id1 0 + sd.radii.getD id2 0) ≤ rsqr → sd' = sd) ∧
      (rsqr < (sd.radii.getD id1 0 + sd.radii.getD id2 0) *
          (sd.radii.getD id1 0 + sd.radii.getD id2 0) →
        sd'.forces[id1]? =
          some (sd.forces.getD id1 0 -
            (Vec2.normalize sqrtf (sd.positions.getD id2 0 - sd.positions.getD id1 0)).smul
              (hsf.repulsion *
                (sd.radii.getD id1 0 + sd.radii.getD id2 0 -
                  sqrtf (sd.radii.getD id1 0 + sd.radii.getD id2 0)))) ∧
        sd'.forces[id2]? =
          some (sd.forces.getD id2 0 +
            (Vec2.normalize sqrtf (sd.positions.getD id2 0 - sd.positions.getD id1 0)).smul
              (hsf.repulsion *
                (sd.radii.getD id1 0 + sd.radii.getD id2 0 -
                  sqrtf (sd.radii.getD id1 0 + sd.radii.getD id2 0)))) ∧
        ∀ k, k ≠ id1 → k ≠ id2 → sd'.forces[k]? = sd.forces[k]?) := by
  rw [List.getD_eq_getElem _ _ hr1, List.getD_eq_getElem _ _ hr2,
    List.getD_eq_getElem _ _ hf1, List.getD_eq_getElem _ _ hf2,
    List.getD_eq_getElem _ _ hp1, List.getD_eq_getElem _ _ hp2]
  unfold HardSphereForce.calculate_forces SimData.distance_sqr_between
  simp only [List.get?_eq_getElem?, List.getElem?_eq_getElem hp1,
    List.getElem?_eq_getElem hp2, List.getElem?_eq_getElem hr1,
    List.getElem?_eq_getElem hr2, List.getElem?_eq_getElem hf1,
    Option.bind_eq_bind, Option.some_bind, Option.pure_def]
  split_ifs with hlt
  · have hf2' : id2 < (sd.forces.set id1
        (sd.forces[id1] -
          ((Vec2.normalize sqrtf (sd.positions[id2] - sd.positions[id1])).smul
            hsf.repulsion).smul
            (sd.radii[id1] + sd.radii[id2] -
              sqrtf (sd.radii[id1] + sd.radii[id2])))).length := by
      simpa using hf2
    simp only [List.getElem?_eq_getElem hf2', Option.some_bind]
    refine ⟨_, _, rfl, rfl, rfl, rfl, rfl, rfl, rfl, rfl, rfl,
      fun habs => absurd hlt (not_lt.mpr habs), fun _ => ⟨?_, ?_, ?_⟩⟩
    · rw [List.getElem?_set_ne hne.symm, List.getElem?_set_self hf1]
      simp only [Vec2.smul_smul]
    · rw [List.getElem?_set_self hf2']
      simp only [List.getElem_set_ne hne, Vec2.smul_smul]
    · intro k hk1 hk2
      rw [List.getElem?_set_ne (Ne.symm hk2), List.getElem?_set_ne (Ne.symm hk1)]
  · exact ⟨sd, _, rfl, rfl, rfl, rfl, rfl, rfl, rfl, rfl, rfl, fun _ => rfl,
      fun habs => absurd habs hlt⟩

/-- C2 witness: the description applied to the overlapping pair `(0, 1)` of
`simdataC3` with `repulsion = 10` and the square root modelled by the zero
function. -/
theorem C2_hard_sphere_calculate_forces_witness :
    ∃ sd' rsqr,
      simdataC3.distance_sqr_between 0 1 = some rsqr ∧
      HardSphereForce.calculate_forces ⟨10⟩ (fun _ => 0) simdataC3 0 1 = some sd' ∧
      sd'.radii = simdataC3.radii ∧ sd'.masses = simdataC3.masses ∧
      sd'.positions = simdataC3.positions ∧ sd'.velocities = simdataC3.velocities ∧
      sd'.bounds = simdataC3.bounds ∧ sd'.topology = simdataC3.topology ∧
      sd'.simulation_time = simdataC3.simulation_time ∧
      ((simdataC3.radii.getD 0 0 + simdataC3.radii.getD 1 0) *
          (simdataC3.radii.getD 0 0 + simdataC3.radii.getD 1 0) ≤ rsqr →
        sd' = simdataC3) ∧
      (rsqr < (simdataC3.radii.getD 0 0 + simdataC3.radii.getD 1 0) *
          (simdataC3.radii.getD 0 0 + simdataC3.radii.getD 1 0) →
        sd'.forces[0]? =
          some (simdataC3.forces.getD 0 0 -
            (Vec2.normalize (fun _ => 0)
              (simdataC3.positions.getD 1 0 - simdataC3.positions.getD 0 0)).smul
              ((10 : ℚ) *
                (simdataC3.radii.getD 0 0 + simdataC3.radii.getD 1 0 -
                  (fun _ : ℚ => (0 : ℚ))
                    (simdataC3.radii.getD 0 0 + simdataC3.radii.getD 1 0)))) ∧
        sd'.forces[1]? =
          some (simdataC3.forces.getD 1 0 +
            (Vec2.normalize (fun _ => 0)
              (simdataC3.positions.getD 1 0 - simdataC3.positions.getD 0 0)).smul
              ((10 : ℚ) *
                (simdataC3.radii.getD 0 0 + simdataC3.radii.getD 1 0 -
                  (fun _ : ℚ => (0 : ℚ))
                    (simdataC3.radii.getD 0 0 + simdataC3.radii.getD 1 0)))) ∧
        ∀ k, k ≠ 0 → k ≠ 1 → sd'.forces[k]? = simdataC3.forces[k]?) :=
  C2_hard_sphere_calculate_forces ⟨10⟩ (fun _ => 0) simdataC3 0 1
    (by decide) (by decide) (by decide) (by decide) (by decide)
    (by decide) (by decide)

/-- `num_pairs` as folded by the `From` conversion counts the flattened
pairs. -/
theorem foldl_add_lengths (v : List (ℕ × List ℕ)) :
    ∀ n : ℕ, v.foldl (fun sum x => sum + x.2.length) n = n + (flatPairs v).length := by
  induction v with
  | nil => intro n; simp [flatPairs]
  | cons e rest ih =>
      intro n
      simp only [List.foldl_cons, ih, flatPairs, List.flatMap_cons, List.length_append,
        List.length_map]
      omega

/-- In mid-entry state, the remaining yields start with the current slot. -/
theorem vlRemaining_mid {v : List (ℕ × List ℕ)} {hc sc : ℕ} {e : ℕ × List ℕ}
    (he : v.get? hc = some e) (hsclt : sc < e.2.length) :
    vlRemaining v hc sc = (e.1, e.2[sc]) :: vlRemaining v hc (sc + 1) := by
  have hsclt' : sc < (List.map (fun id2 => (e.1, id2)) e.2).length := by
    simpa using hsclt
  simp only [vlRemaining, he, List.map_drop]
  rw [List.drop_eq_getElem_cons hsclt']
  simp

/-- At the end of an entry, the remaining yields are the flattening of the
later entries. -/
theorem vlRemaining_end {v : List (ℕ × List ℕ)} {hc : ℕ} {e : ℕ × List ℕ}
    (he : v.get? hc = some e) :
    vlRemaining v hc e.2.length = flatPairs (v.drop (hc + 1)) := by
  simp only [vlRemaining, he, List.drop_length]
  simp

/-- Driving the iterator with enough fuel from any reachable state yields
exactly the remaining pairs, provided every inner list is non-empty. -/
theorem vlRun_go (v : List (ℕ × List ℕ)) (hall : ∀ e ∈ v, e.2 ≠ []) :
    ∀ (fuel hc sc : ℕ),
      (hc = v.length ∨ ∃ e, v.get? hc = some e ∧ sc ≤ e.2.length) →
      (vlRemaining v hc sc).length + 1 ≤ fuel →
      vlRun v fuel hc sc = some (vlRemaining v hc sc) := by
  intro fuel
  induction fuel with
  | zero => intro hc sc _ hf; omega
  | succ fuel ih =>
      intro hc sc hstate hfuel
      rcases hstate with rfl | ⟨e, he, hsc⟩
      · have hrem : vlRemaining v v.length sc = [] := by
          simp only [vlRemaining, List.get?_eq_getElem?, List.getElem?_eq_none le_rfl]
        have hnext : vlNext v v.length sc = some none := by
          unfold vlNext
          rw [if_pos rfl]
        simp only [vlRun, hnext, hrem]
      · rw [List.get?_eq_getElem?] at he
        obtain ⟨hlt, hval⟩ := List.getElem?_eq_some_iff.mp he
        by_cases hsclt : sc < e.2.length
        · have hnext : vlNext v hc sc =
              some (some ((e.1, e.2[sc]), hc, sc + 1)) := by
            simp only [vlNext, if_neg (Nat.ne_of_lt hlt), List.get?_eq_getElem?,
              List.getElem?_eq_getElem hlt, hval, if_pos hsclt,
              List.getElem?_eq_getElem hsclt]
          have hrem : vlRemaining v hc sc =
              (e.1, e.2[sc]) :: vlRemaining v hc (sc + 1) :=
            vlRemaining_mid (by rw [List.get?_eq_getElem?]; exact he) hsclt
          have hrec := ih hc (sc + 1)
            (Or.inr ⟨e, by rw [List.get?_eq_getElem?]; exact he, hsclt⟩)
            (by rw [hrem] at hfuel; simpa using Nat.le_of_succ_le_succ hfuel)
          simp only [vlRun, hnext, hrec, Option.map_some']
          rw [hrem]
        · have hsceq : sc = e.2.length := le_antisymm hsc (not_lt.mp hsclt)
          subst hsceq
          have hrem0 : vlRemaining v hc e.2.length = flatPairs (v.drop (hc + 1)) :=
            vlRemaining_end (by rw [List.get?_eq_getElem?]; exact he)
          by_cases hend : hc + 1 = v.length
          · have hnext : vlNext v hc e.2.length = some none := by
              simp only [vlNext, if_neg (Nat.ne_of_lt hlt), List.get?_eq_getElem?,
                List.getElem?_eq_getElem hlt, hval, if_neg (lt_irrefl e.2.length),
                if_pos hend]
            have hrem : vlRemaining v hc e.2.length = [] := by
              rw [hrem0, hend, List.drop_length]
              rfl
            simp only [vlRun, hnext, hrem]
          · have hlt2 : hc + 1 < v.length := lt_of_le_of_ne hlt hend
            have hmem2 : v[hc + 1] ∈ v := List.getElem_mem hlt2
            have hne2 : v[hc + 1].2 ≠ [] := hall _ hmem2
            have hpos2 : 0 < v[hc + 1].2.length := List.length_pos.mpr hne2
            have hnext : vlNext v hc e.2.length =
                some (some ((v[hc + 1].1, v[hc + 1].2[0]), hc + 1, 1)) := by
              simp only [vlNext, if_neg (Nat.ne_of_lt hlt), List.get?_eq_getElem?,
                List.getElem?_eq_getElem hlt, hval, if_neg (lt_irrefl e.2.length),
                if_neg hend, List.getElem?_eq_getElem hlt2,
                List.getElem?_eq_getElem hpos2]
            have hdecomp := List.drop_eq_getElem_cons (l := v[hc + 1].2) (n := 0)
              (by simpa using hpos2)
            rw [List.drop_zero] at hdecomp
            have hrem : vlRemaining v hc e.2.length =
                (v[hc + 1].1, v[hc + 1].2[0]) :: vlRemaining v (hc + 1) 1 := by
              rw [hrem0, List.drop_eq_getElem_cons hlt2]
              simp only [flatPairs, List.flatMap_cons]
              simp only [vlRemaining, List.get?_eq_getElem?,
                List.getElem?_eq_getElem hlt2]
              conv_lhs => rw [hdecomp]
              simp [flatPairs]
            have hrec := ih (hc + 1) 1
              (Or.inr ⟨v[hc + 1], by
                rw [List.get?_eq_getElem?, List.getElem?_eq_getElem hlt2], hpos2⟩)
              (by rw [hrem] at hfuel; simpa using Nat.le_of_succ_le_succ hfuel)
            simp only [vlRun, hnext, hrec, Option.map_some']
            rw [hrem]

/-- C10: on a `VerletLists` whose inner candidate lists are all non-empty
(as `create_verlet_lists` guarantees, pushing only non-empty neighbor
lists), the flat iterator panics nowhere and yields exactly `num_pairs`
pairs — `(id1, id2)` for each entry `(id1, list)` in stored order and each
`id2` of `list` in order; and the non-emptiness precondition is necessary:
on `[(0, []), (1, [])]` the very first `next` call indexes out of range. -/
theorem C10_flat_iterator (v : List (ℕ × List ℕ)) (hall : ∀ e ∈ v, e.2 ≠ []) :
    (vlRun v ((VerletLists.fromList v).num_pairs + 1) 0 0 = some (flatPairs v) ∧
      (flatPairs v).length = (VerletLists.fromList v).num_pairs) ∧
    (¬ (∀ e ∈ [((0 : ℕ), ([] : List ℕ)), (1, [])], e.2 ≠ []) ∧
      vlNext [((0 : ℕ), ([] : List ℕ)), (1, [])] 0 0 = none) := by
  have hlen : (flatPairs v).length = (VerletLists.fromList v).num_pairs := by
    show _ = v.foldl (fun sum x => sum + x.2.length) 0
    rw [foldl_add_lengths v 0]
    omega
  have hrem : vlRemaining v 0 0 = flatPairs v := by
    cases v with
    | nil => rfl
    | cons e rest =>
        unfold vlRemaining flatPairs
        simp
  refine ⟨⟨?_, hlen⟩, by decide, by decide⟩
  have := vlRun_go v hall ((VerletLists.fromList v).num_pairs + 1) 0 0 ?_ ?_
  · rw [hrem] at this
    exact this
  · cases v with
    | nil => exact Or.inl rfl
    | cons e rest => exact Or.inr ⟨e, rfl, Nat.zero_le _⟩
  · rw [hrem, hlen]

/-- C10 witness: the iterator run on the concrete structure
`[(0, [1, 3]), (2, [0])]`. -/
theorem C10_flat_iterator_witness :
    (vlRun [((0 : ℕ), [1, 3]), (2, [0])]
        ((VerletLists.fromList [((0 : ℕ), [1, 3]), (2, [0])]).num_pairs + 1) 0 0 =
      some (flatPairs [((0 : ℕ), [1, 3]), (2, [0])]) ∧
      (flatPairs [((0 : ℕ), [1, 3]), (2, [0])]).length =
        (VerletLists.fromList [((0 : ℕ), [1, 3]), (2, [0])]).num_pairs) ∧
    (¬ (∀ e ∈ [((0 : ℕ), ([] : List ℕ)), (1, [])], e.2 ≠ []) ∧
      vlNext [((0 : ℕ), ([] : List ℕ)), (1, [])] 0 0 = none) :=
  C10_flat_iterator [((0 : ℕ), [1, 3]), (2, [0])] (by decide)

/-- Row-major cell indexing is injective on in-range coordinates. -/
theorem grid_index_inj {nx cx cy ix iy : ℕ} (hcx : cx < nx) (hix : ix < nx)
    (h : nx * cy + cx = nx * iy + ix) : cx = ix ∧ cy = iy := by
  have h1 : (nx * cy + cx) % nx = cx := by
    rw [Nat.mul_add_mod, Nat.mod_eq_of_lt hcx]
  have h2 : (nx * iy + ix) % nx = ix := by
    rw [Nat.mul_add_mod, Nat.mod_eq_of_lt hix]
  have hcxix : cx = ix := by rw [← h1, h, h2]
  subst hcxix
  refine ⟨rfl, ?_⟩
  have hnx : 0 < nx := lt_of_le_of_lt (Nat.zero_le cx) hcx
  have hmul : nx * cy = nx * iy := by omega
  exact Nat.eq_of_mul_eq_mul_left hnx hmul

/-- `binKey` only depends on the grid's geometric fields, which `add_particle`
never changes. -/
theorem binKey_congr {lc lc' : LinkedCells} (sd : SimData)
    (hb : lc'.bounds = lc.bounds) (hw : lc'.cell_width = lc.cell_width)
    (hh : lc'.cell_height = lc.cell_height) : binKey lc' sd = binKey lc sd := by
  funext id
  unfold binKey LinkedCells.get_cell_indices
  rw [hb, hw, hh]

/-- A `pairRel`-related candidate is never the head itself. -/
theorem pairRel_ne {lc : LinkedCells} {sd : SimData} {a b : ℕ}
    (h : pairRel lc sd a b) : a ≠ b := by
  rintro rfl
  rcases h with ⟨off, hoff, h1, h2⟩ | ⟨_, hlt⟩
  · simp only [stencilOffsets, List.mem_cons, List.mem_singleton] at hoff
    rcases hoff with rfl | rfl | rfl | rfl | h'
    all_goals first
      | omega
      | exact absurd h' (List.not_mem_nil _)
  · exact lt_irrefl _ hlt

/-- `pairRel` is asymmetric: the stencil contains no opposite offsets, and
same-cell pairs are ordered. -/
theorem pairRel_asymm {lc : LinkedCells} {sd : SimData} {a b : ℕ}
    (hab : pairRel lc sd a b) (hba : pairRel lc sd b a) : False := by
  rcases hab with ⟨off, hoff, h1, h2⟩ | ⟨hkey, hlt⟩ <;>
    rcases hba with ⟨off', hoff', h1', h2'⟩ | ⟨hkey', hlt'⟩
  · simp only [stencilOffsets, List.mem_cons, List.mem_singleton] at hoff hoff'
    rcases hoff with rfl | rfl | rfl | rfl | h'
    on_goal 5 => exact absurd h' (List.not_mem_nil _)
    all_goals
      rcases hoff' with rfl | rfl | rfl | rfl | h'
      on_goal 5 => exact absurd h' (List.not_mem_nil _)
      all_goals omega
  · have e1 := congrArg Prod.fst hkey'
    have e2 := congrArg Prod.snd hkey'
    simp only [stencilOffsets, List.mem_cons, List.mem_singleton] at hoff
    rcases hoff with rfl | rfl | rfl | rfl | h'
    on_goal 5 => exact absurd h' (List.not_mem_nil _)
    all_goals
      simp only at e1 e2
      omega
  · have e1 := congrArg Prod.fst hkey
    have e2 := congrArg Prod.snd hkey
    simp only [stencilOffsets, List.mem_cons, List.mem_singleton] at hoff'
    rcases hoff' with rfl | rfl | rfl | rfl | h'
    on_goal 5 => exact absurd h' (List.not_mem_nil _)
    all_goals
      simp only at e1 e2
      omega
  · exact lt_irrefl _ (hlt.trans hlt')

/-- A position in the half-open bounds box bins to an in-range cell index
(exact arithmetic: `(q - lo)/(L/n) < n` because `q - lo < L`). -/
theorem bin_axis_in_range {lo hi q : ℚ} {n : ℕ} (hn : 0 < n)
    (hlo : lo ≤ q) (hhi : q < hi) :
    (⌊(q - lo) / ((hi - lo) / (n : ℚ))⌋).toNat < n := by
  have hL : 0 < hi - lo := by linarith
  have hnq : (0 : ℚ) < (n : ℚ) := by exact_mod_cast hn
  have hcw : 0 < (hi - lo) / (n : ℚ) := div_pos hL hnq
  have ht : (q - lo) / ((hi - lo) / (n : ℚ)) < (n : ℚ) := by
    rw [div_lt_iff hcw]
    have : (n : ℚ) * ((hi - lo) / (n : ℚ)) = hi - lo := by
      field_simp
    rw [this]
    linarith
  have hfl : ⌊(q - lo) / ((hi - lo) / (n : ℚ))⌋ < (n : ℤ) := by
    rw [Int.floor_lt]
    exact_mod_cast ht
  omega

/-- The binning fold of `create_verlet_lists` (add each particle id to the
cell of its position) succeeds when every position bins in range, preserves
the grid geometry, and leaves each cell holding its old ids followed by the
ids of this batch binned to it, in batch order. -/
theorem addAll_cells (sd : SimData) :
    ∀ (ids : List ℕ) (lc : LinkedCells),
      (∀ id ∈ ids, ∃ p, sd.positions.get? id = some p ∧
        (lc.get_cell_indices p.x p.y).1 < lc.num_x ∧
        (lc.get_cell_indices p.x p.y).2 < lc.num_y) →
      lc.cells.length = lc.num_x * lc.num_y →
      ∃ lc', (ids.foldlM (fun lc id => do
            let p ← sd.positions.get? id
            lc.add_particle p id) lc) = some lc' ∧
        lc'.num_x = lc.num_x ∧ lc'.num_y = lc.num_y ∧ lc'.bounds = lc.bounds ∧
        lc'.cell_width = lc.cell_width ∧ lc'.cell_height = lc.cell_height ∧
        lc'.cells.length = lc.cells.length ∧
        ∀ cx cy, cx < lc.num_x → cy < lc.num_y →
          cellList lc' cx cy = cellList lc cx cy ++
            ids.filter (fun id => decide (binKey lc sd id = (cx, cy))) := by
  intro ids
  induction ids with
  | nil =>
      intro lc _ _
      exact ⟨lc, by simp [List.foldlM_nil], rfl, rfl, rfl, rfl, rfl, rfl,
        fun cx cy _ _ => by simp⟩
  | cons id rest ih =>
      intro lc hvalid hlen
      obtain ⟨p, hp, hix, hiy⟩ := hvalid id (List.mem_cons_self _ _)
      set ix := (lc.get_cell_indices p.x p.y).1 with hixd
      set iy := (lc.get_cell_indices p.x p.y).2 with hiyd
      have hidx : lc.num_x * iy + ix < lc.cells.length := by
        rw [hlen]
        calc lc.num_x * iy + ix < lc.num_x * iy + lc.num_x := by omega
          _ = lc.num_x * (iy + 1) := by ring
          _ ≤ lc.num_x * lc.num_y := Nat.mul_le_mul_left _ hiy
      set newCell : Cell := ⟨(lc.cells[lc.num_x * iy + ix]).particle_ids ++ [id]⟩
        with hnewCell
      set lc1 : LinkedCells :=
        { lc with cells := lc.cells.set (lc.num_x * iy + ix) newCell } with hlc1
      have hstep : lc.add_particle p id = some lc1 := by
        unfold LinkedCells.add_particle
        rw [if_neg (by push_neg; exact ⟨hix, hiy⟩)]
        rw [List.get?_eq_getElem?, List.getElem?_eq_getElem hidx]
        rfl
      obtain ⟨lc', hfold, hnx, hny, hbd, hcw, hch, hclen, hcells⟩ := ih lc1
        (by
          intro id' hid'
          obtain ⟨q, hq, hqx, hqy⟩ := hvalid id' (List.mem_cons_of_mem _ hid')
          exact ⟨q, hq, hqx, hqy⟩)
        (by simpa [hlc1] using hlen)
      have hnx1 : lc1.num_x = lc.num_x := rfl
      have hny1 : lc1.num_y = lc.num_y := rfl
      refine ⟨lc', ?_, by rw [hnx, hnx1], by rw [hny, hny1], hbd, hcw, hch,
        by simpa [hlc1] using hclen, ?_⟩
      · rw [List.foldlM_cons, hp]
        simp only [Option.bind_eq_bind, Option.some_bind]
        rw [hstep]
        simpa using hfold
      · intro cx cy hcx hcy
        have hkey : binKey lc sd id = (ix, iy) := by
          unfold binKey
          have hgd : sd.positions.getD id Vec2.zero = p := by
            rw [List.get?_eq_getElem?] at hp
            obtain ⟨hlt', hval'⟩ := List.getElem?_eq_some_iff.mp hp
            rw [List.getD_eq_getElem _ _ hlt', hval']
          rw [hgd, hixd, hiyd]
        have hbk : binKey lc1 sd = binKey lc sd := binKey_congr sd rfl rfl rfl
        rw [hcells cx cy (by rw [hnx1]; exact hcx) (by rw [hny1]; exact hcy), hbk]
        by_cases heq : (ix, iy) = ((cx, cy) : ℕ × ℕ)
        · have h1 : ix = cx := congrArg Prod.fst heq
          have h2 : iy = cy := congrArg Prod.snd heq
          have hfil : (id :: rest).filter
              (fun id => decide (binKey lc sd id = (cx, cy))) =
              id :: rest.filter (fun id => decide (binKey lc sd id = (cx, cy))) := by
            rw [List.filter_cons_of_pos]
            simp [hkey, heq]
          rw [hfil]
          have hcl : cellList lc1 cx cy = cellList lc cx cy ++ [id] := by
            unfold cellList
            rw [hlc1]
            simp only
            rw [← h1, ← h2]
            rw [List.getD_eq_getElem?_getD, List.getElem?_set_self hidx]
            rw [List.getD_eq_getElem?_getD, List.getElem?_eq_getElem hidx]
            rfl
          rw [hcl, List.append_assoc]
          rfl
        · have hfil : (id :: rest).filter
              (fun id => decide (binKey lc sd id = (cx, cy))) =
              rest.filter (fun id => decide (binKey lc sd id = (cx, cy))) := by
            rw [List.filter_cons_of_neg]
            simp [hkey, heq]
          rw [hfil]
          have hne : lc.num_x * cy + cx ≠ lc.num_x * iy + ix := by
            intro he
            exact heq (Prod.ext (grid_index_inj hix hcx he.symm).1
              (grid_index_inj hix hcx he.symm).2)
          have hcl : cellList lc1 cx cy = cellList lc cx cy := by
            unfold cellList
            rw [hlc1]
            simp only
            rw [List.getD_eq_getElem?_getD, List.getElem?_set_ne (Ne.symm hne),
              ← List.getD_eq_getElem?_getD]
          rw [hcl]

/-- Row-major indexing stays below the cell count. -/
theorem grid_index_lt {nx ny cx cy : ℕ} (hcx : cx < nx) (hcy : cy < ny) :
    nx * cy + cx < nx * ny := by
  calc nx * cy + cx < nx * cy + nx := by omega
    _ = nx * (cy + 1) := by ring
    _ ≤ nx * ny := Nat.mul_le_mul_left _ hcy

/-- `get_cell` on in-range indices of a well-formed grid returns the stored
cell. -/
theorem get_cell_spec (lc : LinkedCells)
    (hlen : lc.cells.length = lc.num_x * lc.num_y) {cx cy : ℕ}
    (hcx : cx < lc.num_x) (hcy : cy < lc.num_y) :
    ∃ c, lc.get_cell cx cy = some c ∧ c.particle_ids = cellList lc cx cy := by
  have hidx : lc.num_x * cy + cx < lc.cells.length := by
    rw [hlen]
    exact grid_index_lt hcx hcy
  unfold LinkedCells.get_cell
  rw [if_neg (by push_neg; exact ⟨hcx, hcy⟩)]
  rw [List.get?_eq_getElem?, List.getElem?_eq_getElem hidx]
  refine ⟨_, rfl, ?_⟩
  unfold cellList
  rw [List.getD_eq_getElem?_getD, List.getElem?_eq_getElem hidx]
  rfl

/-- A present `get_adjusted_cell` result is the stored cell at the offset
coordinates, which are in range (no wrap-around is possible). -/
theorem get_adjusted_cell_spec (lc : LinkedCells) (ix iy : ℕ) (dx dy : ℤ)
    {c : Cell} (h : lc.get_adjusted_cell ix iy dx dy = some c) :
    ∃ cx cy : ℕ, (cx : ℤ) = ix + dx ∧ (cy : ℤ) = iy + dy ∧
      cx < lc.num_x ∧ cy < lc.num_y ∧ c.particle_ids = cellList lc cx cy := by
  unfold LinkedCells.get_adjusted_cell at h
  split_ifs at h with hguard
  push_neg at hguard
  unfold LinkedCells.get_cell at h
  split_ifs at h with hg2
  push_neg at hg2
  obtain ⟨hq1, hq2, hq3, hq4⟩ := hguard
  have hx0 : 0 ≤ (ix : ℤ) + dx := by
    rcases lt_or_le dx 0 with hdx | hdx
    · have := hq1 hdx
      omega
    · omega
  have hy0 : 0 ≤ (iy : ℤ) + dy := by
    rcases lt_or_le dy 0 with hdy | hdy
    · have := hq2 hdy
      omega
    · omega
  rw [List.get?_eq_getElem?] at h
  refine ⟨((ix : ℤ) + dx).toNat, ((iy : ℤ) + dy).toNat, by omega, by omega,
    hg2.1, hg2.2, ?_⟩
  unfold cellList
  rw [List.getD_eq_getElem?_getD, h]
  rfl

/-- `check_neighbors` on in-range ids succeeds and appends a sublist of the
candidate list (the candidates passing the distance test, in order). -/
theorem check_neighbors_spec (sd : SimData) (id1 : ℕ) (cutoff : ℚ)
    (h1p : id1 < sd.positions.length) (h1r : id1 < sd.radii.length) :
    ∀ (cand acc : List ℕ),
      (∀ id2 ∈ cand, id2 < sd.positions.length ∧ id2 < sd.radii.length) →
      ∃ fil, check_neighbors id1 cand sd acc cutoff = some (acc ++ fil) ∧
        fil.Sublist cand := by
  intro cand
  induction cand with
  | nil =>
      intro acc _
      exact ⟨[], by simp [check_neighbors], List.nil_sublist _⟩
  | cons id2 rest ih =>
      intro acc hval
      obtain ⟨h2p, h2r⟩ := hval id2 (List.mem_cons_self _ _)
      have hrest : ∀ b ∈ rest, b < sd.positions.length ∧ b < sd.radii.length :=
        fun b hb => hval b (List.mem_cons_of_mem _ hb)
      unfold check_neighbors SimData.distance_sqr_between
      simp only [List.get?_eq_getElem?, List.getElem?_eq_getElem h1p,
        List.getElem?_eq_getElem h2p, List.getElem?_eq_getElem h1r,
        List.getElem?_eq_getElem h2r, Option.bind_eq_bind, Option.some_bind,
        Option.pure_def]
      split_ifs with hcond
      · obtain ⟨fil, hrec, hsub⟩ := ih (acc ++ [id2]) hrest
        refine ⟨id2 :: fil, ?_, List.Sublist.cons₂ id2 hsub⟩
        rw [hrec]
        simp
      · obtain ⟨fil, hrec, hsub⟩ := ih acc hrest
        exact ⟨fil, hrec, hsub.cons id2⟩

/-- One stencil block of `create_verlet_lists`, tracked against the set `D`
of offsets already scanned: the accumulator stays duplicate-free and every
accumulated candidate lives in a scanned-offset cell. -/
theorem stencil_acc_step (lc : LinkedCells) (sd : SimData) (cutoff : ℚ) (N : ℕ)
    (hposlen : sd.positions.length = N) (hradlen : sd.radii.length = N)
    (HC : ∀ cx cy, cx < lc.num_x → cy < lc.num_y →
      cellList lc cx cy = (List.range N).filter
        (fun id => decide (binKey lc sd id = (cx, cy))))
    (ix iy : ℕ) (id1 : ℕ) (h1N : id1 < N)
    (dx dy : ℤ) (D : List (ℤ × ℤ)) (hDo : (dx, dy) ∉ D)
    (acc : List ℕ) (haccnd : acc.Nodup)
    (haccmem : ∀ b ∈ acc, b < N ∧ ∃ off ∈ D,
      ((binKey lc sd b).1 : ℤ) = ix + off.1 ∧
      ((binKey lc sd b).2 : ℤ) = iy + off.2) :
    ∃ res, stencilStep lc sd cutoff ix iy dx dy id1 acc = some res ∧
      res.Nodup ∧
      ∀ b ∈ res, b < N ∧ ∃ off ∈ D ++ [(dx, dy)],
        ((binKey lc sd b).1 : ℤ) = ix + off.1 ∧
        ((binKey lc sd b).2 : ℤ) = iy + off.2 := by
  cases hadj : lc.get_adjusted_cell ix iy dx dy with
  | none =>
      have hstep : stencilStep lc sd cutoff ix iy dx dy id1 acc = some acc := by
        unfold stencilStep
        rw [hadj]
      refine ⟨acc, hstep, haccnd, ?_⟩
      intro b hb
      obtain ⟨hbN, off, hoffD, e1, e2⟩ := haccmem b hb
      exact ⟨hbN, off, List.mem_append_left _ hoffD, e1, e2⟩
  | some cell =>
      have hstep : stencilStep lc sd cutoff ix iy dx dy id1 acc =
          check_neighbors id1 cell.particle_ids sd acc cutoff := by
        unfold stencilStep
        rw [hadj]
      obtain ⟨cx, cy, hcxe, hcye, hcxlt, hcylt, hcl⟩ :=
        get_adjusted_cell_spec lc ix iy dx dy hadj
      have hcell := HC cx cy hcxlt hcylt
      have hcand : ∀ id2 ∈ cell.particle_ids,
          id2 < sd.positions.length ∧ id2 < sd.radii.length := by
        intro id2 hid2
        rw [hcl, hcell] at hid2
        obtain ⟨hrange, _⟩ := List.mem_filter.mp hid2
        have := List.mem_range.mp hrange
        exact ⟨by omega, by omega⟩
      obtain ⟨fil, hcn, hsub⟩ := check_neighbors_spec sd id1 cutoff (by omega)
        (by omega) cell.particle_ids acc hcand
      refine ⟨acc ++ fil, hstep.trans hcn, ?_, ?_⟩
      · rw [List.nodup_append]
        refine ⟨haccnd, ?_, ?_⟩
        · have hnd : cell.particle_ids.Nodup := by
            rw [hcl, hcell]
            exact (List.nodup_range N).filter _
          exact hnd.sublist hsub
        · intro b hbacc hbfil
          obtain ⟨hbN, off, hoffD, e1, e2⟩ := haccmem b hbacc
          have hbcell : b ∈ cell.particle_ids := hsub.subset hbfil
          rw [hcl, hcell] at hbcell
          obtain ⟨_, hkey⟩ := List.mem_filter.mp hbcell
          have hkey' : binKey lc sd b = (cx, cy) := of_decide_eq_true hkey
          have ek1 : ((binKey lc sd b).1 : ℤ) = cx := by rw [hkey']
          have ek2 : ((binKey lc sd b).2 : ℤ) = cy := by rw [hkey']
          have ho1 : off.1 = dx := by omega
          have ho2 : off.2 = dy := by omega
          have hoffeq : off = (dx, dy) := Prod.ext ho1 ho2
          exact hDo (hoffeq ▸ hoffD)
      · intro b hb
        rcases List.mem_append.mp hb with hbacc | hbfil
        · obtain ⟨hbN, off, hoffD, e1, e2⟩ := haccmem b hbacc
          exact ⟨hbN, off, List.mem_append_left _ hoffD, e1, e2⟩
        · have hbcell : b ∈ cell.particle_ids := hsub.subset hbfil
          rw [hcl, hcell] at hbcell
          obtain ⟨hrange, hkey⟩ := List.mem_filter.mp hbcell
          have hkey' : binKey lc sd b = (cx, cy) := of_decide_eq_true hkey
          refine ⟨List.mem_range.mp hrange, (dx, dy),
            List.mem_append_right _ (List.mem_singleton.mpr rfl), ?_, ?_⟩
          · rw [hkey']
            exact hcxe
          · rw [hkey']
            exact hcye

/-- The per-cell particle loop of `create_verlet_lists`: on any suffix (in
fact sublist) of the cell's id list it succeeds, its entry heads form a
sublist of the ids, and every emitted entry is non-empty, duplicate-free
and `pairRel`-related to its head. -/
theorem cellLoop_spec (lc : LinkedCells) (sd : SimData) (cutoff : ℚ) (N : ℕ)
    (hposlen : sd.positions.length = N) (hradlen : sd.radii.length = N)
    (HC : ∀ cx cy, cx < lc.num_x → cy < lc.num_y →
      cellList lc cx cy = (List.range N).filter
        (fun id => decide (binKey lc sd id = (cx, cy))))
    (ix iy : ℕ) (hix : ix < lc.num_x) (hiy : iy < lc.num_y) :
    ∀ l : List ℕ, l.Sublist (cellList lc ix iy) →
      ∃ es, cellLoop lc sd cutoff ix iy l = some es ∧
        (es.map Prod.fst).Sublist l ∧
        ∀ e ∈ es, e.2.Nodup ∧ e.2 ≠ [] ∧
          ∀ b ∈ e.2, b < N ∧ pairRel lc sd e.1 b := by
  have hcell := HC ix iy hix hiy
  have hclpw : (cellList lc ix iy).Pairwise (· < ·) := by
    rw [hcell]
    exact List.Pairwise.sublist (List.filter_sublist _) (List.pairwise_lt_range N)
  intro l
  induction l with
  | nil =>
      intro _
      exact ⟨[], rfl, by simp, by simp⟩
  | cons id1 rest ih =>
      intro hsubl
      have hid1mem : id1 ∈ cellList lc ix iy := hsubl.subset (List.mem_cons_self _ _)
      have hid1f := hcell ▸ hid1mem
      obtain ⟨hr1, hk1⟩ := List.mem_filter.mp hid1f
      have h1N : id1 < N := List.mem_range.mp hr1
      have hkey1 : binKey lc sd id1 = (ix, iy) := of_decide_eq_true hk1
      have hrestmem : ∀ b ∈ rest, b < N ∧ binKey lc sd b = (ix, iy) := by
        intro b hb
        have hbmem : b ∈ cellList lc ix iy :=
          hsubl.subset (List.mem_cons_of_mem _ hb)
        have hbf := hcell ▸ hbmem
        obtain ⟨hrb, hkb⟩ := List.mem_filter.mp hbf
        exact ⟨List.mem_range.mp hrb, of_decide_eq_true hkb⟩
      have hpw : (id1 :: rest).Pairwise (· < ·) := List.Pairwise.sublist hsubl hclpw
      have hlt1 : ∀ b ∈ rest, id1 < b := (List.pairwise_cons.mp hpw).1
      obtain ⟨r1, hs1, hnd1, hm1⟩ := stencil_acc_step lc sd cutoff N hposlen
        hradlen HC ix iy id1 h1N (-1) 1 [] (List.not_mem_nil _) []
        List.nodup_nil (by simp)
      obtain ⟨r2, hs2, hnd2, hm2⟩ := stencil_acc_step lc sd cutoff N hposlen
        hradlen HC ix iy id1 h1N 0 1 ([] ++ [((-1 : ℤ), (1 : ℤ))])
        (by decide) r1 hnd1 hm1
      obtain ⟨r3, hs3, hnd3, hm3⟩ := stencil_acc_step lc sd cutoff N hposlen
        hradlen HC ix iy id1 h1N 1 1 (([] ++ [((-1 : ℤ), (1 : ℤ))]) ++ [(0, 1)])
        (by decide) r2 hnd2 hm2
      obtain ⟨r4, hs4, hnd4, hm4⟩ := stencil_acc_step lc sd cutoff N hposlen
        hradlen HC ix iy id1 h1N (-1) 0
        ((([] ++ [((-1 : ℤ), (1 : ℤ))]) ++ [(0, 1)]) ++ [(1, 1)])
        (by decide) r3 hnd3 hm3
      have hm4' : ∀ b ∈ r4, b < N ∧ ∃ off ∈ stencilOffsets,
          ((binKey lc sd b).1 : ℤ) = ix + off.1 ∧
          ((binKey lc sd b).2 : ℤ) = iy + off.2 := by
        intro b hb
        obtain ⟨hbN, off, hoffmem, e1, e2⟩ := hm4 b hb
        simp only [List.nil_append, List.cons_append, List.singleton_append,
          List.mem_cons, List.mem_singleton] at hoffmem
        refine ⟨hbN, off, ?_, e1, e2⟩
        simp only [stencilOffsets, List.mem_cons, List.mem_singleton]
        tauto
      have hrestval : ∀ b ∈ rest, b < sd.positions.length ∧ b < sd.radii.length := by
        intro b hb
        have := (hrestmem b hb).1
        exact ⟨by omega, by omega⟩
      obtain ⟨fil, hcn, hfsub⟩ := check_neighbors_spec sd id1 cutoff (by omega)
        (by omega) rest r4 hrestval
      obtain ⟨tes, htes, hteheads, hteprops⟩ :=
        ih ((List.sublist_cons_self id1 rest).trans hsubl)
      have hstepeq : cellLoop lc sd cutoff ix iy (id1 :: rest) =
          some ((if r4 ++ fil = [] then [] else [(id1, r4 ++ fil)]) ++ tes) := by
        unfold cellLoop
        rw [hs1]
        simp only [Option.bind_eq_bind, Option.some_bind]
        rw [hs2]
        simp only [Option.some_bind]
        rw [hs3]
        simp only [Option.some_bind]
        rw [hs4]
        simp only [Option.some_bind]
        rw [hcn]
        simp only [Option.some_bind]
        rw [htes]
        simp only [Option.some_bind, Option.pure_def]
      have hfilrel : ∀ b ∈ fil, b < N ∧ binKey lc sd b = (ix, iy) ∧ id1 < b := by
        intro b hb
        have hbr : b ∈ rest := hfsub.subset hb
        exact ⟨(hrestmem b hbr).1, (hrestmem b hbr).2, hlt1 b hbr⟩
      have hnbrnd : (r4 ++ fil).Nodup := by
        rw [List.nodup_append]
        refine ⟨hnd4, ?_, ?_⟩
        · have : rest.Nodup := by
            have hrl : rest.Sublist (cellList lc ix iy) :=
              (List.sublist_cons_self id1 rest).trans hsubl
            exact (hclpw.imp fun h => ne_of_lt h).sublist hrl
          exact this.sublist hfsub
        · intro b hb4 hbfil
          obtain ⟨hbN, off, hoffmem, e1, e2⟩ := hm4' b hb4
          obtain ⟨_, hbkey, _⟩ := hfilrel b hbfil
          have ek1 : ((binKey lc sd b).1 : ℤ) = ix := by rw [hbkey]
          have ek2 : ((binKey lc sd b).2 : ℤ) = iy := by rw [hbkey]
          simp only [stencilOffsets, List.mem_cons, List.mem_singleton] at hoffmem
          rcases hoffmem with rfl | rfl | rfl | rfl | hfalse
          · omega
          · omega
          · omega
          · omega
          · exact absurd hfalse (List.not_mem_nil _)
      have hnbrrel : ∀ b ∈ r4 ++ fil, b < N ∧ pairRel lc sd id1 b := by
        intro b hb
        rcases List.mem_append.mp hb with hb4 | hbfil
        · obtain ⟨hbN, off, hoffmem, e1, e2⟩ := hm4' b hb4
          refine ⟨hbN, Or.inl ⟨off, hoffmem, ?_, ?_⟩⟩
          · rw [hkey1]
            exact e1
          · rw [hkey1]
            exact e2
        · obtain ⟨hbN, hbkey, hblt⟩ := hfilrel b hbfil
          exact ⟨hbN, Or.inr ⟨hbkey.trans hkey1.symm, hblt⟩⟩
      refine ⟨(if r4 ++ fil = [] then [] else [(id1, r4 ++ fil)]) ++ tes,
        hstepeq, ?_, ?_⟩
      · by_cases hnil : r4 ++ fil = []
        · rw [if_pos hnil]
          simpa using hteheads.cons id1
        · rw [if_neg hnil]
          simpa using List.Sublist.cons₂ id1 hteheads
      · intro e he
        rcases List.mem_append.mp he with hehead | hetail
        · by_cases hnil : r4 ++ fil = []
          · rw [if_pos hnil] at hehead
            exact absurd hehead (List.not_mem_nil _)
          · rw [if_neg hnil] at hehead
            obtain rfl : e = (id1, r4 ++ fil) := List.mem_singleton.mp hehead
            exact ⟨hnbrnd, hnil, hnbrrel⟩
        · exact hteprops e hetail

/-- Every enumerated cell index pair is in range. -/
theorem cellOrder_mem (lc : LinkedCells) :
    ∀ c ∈ lc.cellOrder, c.1 < lc.num_x ∧ c.2 < lc.num_y := by
  intro c hc
  unfold LinkedCells.cellOrder at hc
  simp only [List.mem_flatMap, List.mem_map, List.mem_range] at hc
  obtain ⟨ix, hix, iy, hiy, rfl⟩ := hc
  exact ⟨hix, hiy⟩

/-- The cell enumeration visits no cell twice. -/
theorem cellOrder_nodup (lc : LinkedCells) : lc.cellOrder.Nodup := by
  have h : lc.cellOrder = (List.range lc.num_x).product (List.range lc.num_y) := rfl
  rw [h]
  exact List.Nodup.product (List.nodup_range _) (List.nodup_range _)

/-- The double loop over cells: entries are good, their heads are globally
duplicate-free (each head belongs to its visited cell, and cells are visited
once), and each head's bin is among the visited cells. -/
theorem build_spec (lc : LinkedCells) (sd : SimData) (cutoff : ℚ) (N : ℕ)
    (hposlen : sd.positions.length = N) (hradlen : sd.radii.length = N)
    (hlen : lc.cells.length = lc.num_x * lc.num_y)
    (HC : ∀ cx cy, cx < lc.num_x → cy < lc.num_y →
      cellList lc cx cy = (List.range N).filter
        (fun id => decide (binKey lc sd id = (cx, cy)))) :
    ∀ cs : List (ℕ × ℕ), (∀ c ∈ cs, c.1 < lc.num_x ∧ c.2 < lc.num_y) →
      cs.Nodup →
      ∃ ess, cs.mapM (fun c => do
          let cell ← lc.get_cell c.1 c.2
          cellLoop lc sd cutoff c.1 c.2 cell.particle_ids) = some ess ∧
        (∀ e ∈ ess.flatten, e.2.Nodup ∧ e.2 ≠ [] ∧
          ∀ b ∈ e.2, b < N ∧ pairRel lc sd e.1 b) ∧
        (ess.flatten.map Prod.fst).Nodup ∧
        (∀ e ∈ ess.flatten, e.1 < N ∧ binKey lc sd e.1 ∈ cs) := by
  intro cs
  induction cs with
  | nil =>
      intro _ _
      exact ⟨[], rfl, by simp, by simp, by simp⟩
  | cons c cs' ih =>
      intro hval hnd
      obtain ⟨hc1, hc2⟩ := hval c (List.mem_cons_self _ _)
      obtain ⟨cell, hgc, hcpids⟩ := get_cell_spec lc hlen hc1 hc2
      obtain ⟨es, hloop, hheads, hprops⟩ := cellLoop_spec lc sd cutoff N
        hposlen hradlen HC c.1 c.2 hc1 hc2 cell.particle_ids
        (by rw [hcpids])
      obtain ⟨ess', hmap', hprops', hheads', hmem'⟩ :=
        ih (fun d hd => hval d (List.mem_cons_of_mem _ hd))
          (List.nodup_cons.mp hnd).2
      have hheads2 : (es.map Prod.fst).Sublist (cellList lc c.1 c.2) := by
        rw [← hcpids]
        exact hheads
      refine ⟨es :: ess', ?_, ?_, ?_, ?_⟩
      · have hmap2 := hmap'
        simp only [Option.bind_eq_bind, Option.pure_def] at hmap2
        rw [List.mapM_cons]
        simp only [Option.bind_eq_bind, Option.pure_def]
        rw [hgc]
        simp only [Option.some_bind]
        rw [hloop]
        simp only [Option.some_bind]
        rw [hmap2]
        simp only [Option.some_bind]
      · intro e he
        rw [List.flatten_cons] at he
        rcases List.mem_append.mp he with hes | hes'
        · exact hprops e hes
        · exact hprops' e hes'
      · rw [List.flatten_cons, List.map_append, List.nodup_append]
        refine ⟨?_, hheads', ?_⟩
        · have hnd0 : (cellList lc c.1 c.2).Nodup := by
            rw [HC c.1 c.2 hc1 hc2]
            exact (List.nodup_range N).filter _
          exact hnd0.sublist hheads2
        · intro a ha ha'
          have haids : a ∈ cellList lc c.1 c.2 := hheads2.subset ha
          have hkeya : binKey lc sd a = (c.1, c.2) := by
            rw [HC c.1 c.2 hc1 hc2] at haids
            exact of_decide_eq_true (List.mem_filter.mp haids).2
          obtain ⟨e', he', rfl⟩ := List.mem_map.mp ha'
          have hkc := (hmem' e' he').2
          rw [hkeya] at hkc
          exact (List.nodup_cons.mp hnd).1 (by simpa using hkc)
      · intro e he
        rw [List.flatten_cons] at he
        rcases List.mem_append.mp he with hes | hes'
        · have h1 : e.1 ∈ cellList lc c.1 c.2 :=
            hheads2.subset (List.mem_map_of_mem Prod.fst hes)
          rw [HC c.1 c.2 hc1 hc2] at h1
          obtain ⟨hr, hk⟩ := List.mem_filter.mp h1
          refine ⟨List.mem_range.mp hr, ?_⟩
          rw [of_decide_eq_true hk]
          exact List.mem_cons_self _ _
        · obtain ⟨hN, hmem⟩ := hmem' e hes'
          exact ⟨hN, List.mem_cons_of_mem _ hmem⟩

/-- Entry lists whose candidates are `pairRel`-related to their heads and
whose heads are duplicate-free flatten to a pair list with no self pair and
no repeated unordered pair. -/
theorem flat_pairs_good (lc : LinkedCells) (sd : SimData)
    (E : List (ℕ × List ℕ))
    (hgood : ∀ e ∈ E, e.2.Nodup ∧ ∀ b ∈ e.2, pairRel lc sd e.1 b)
    (hheads : (E.map Prod.fst).Nodup) :
    (∀ pr ∈ flatPairs E, pr.1 ≠ pr.2) ∧
    ((flatPairs E).map (fun pr => ({pr.1, pr.2} : Finset ℕ))).Nodup := by
  constructor
  · intro pr hpr
    unfold flatPairs at hpr
    obtain ⟨e, he, hpr'⟩ := List.mem_flatMap.mp hpr
    obtain ⟨b, hb, rfl⟩ := List.mem_map.mp hpr'
    exact pairRel_ne ((hgood e he).2 b hb)
  · have hmap : (flatPairs E).map (fun pr => ({pr.1, pr.2} : Finset ℕ)) =
        (E.map (fun e => e.2.map (fun b => ({e.1, b} : Finset ℕ)))).flatten := by
      unfold flatPairs
      rw [List.map_flatMap]
      rw [List.flatMap_def]
      simp [List.map_map, Function.comp_def]
    rw [hmap, List.nodup_flatten]
    constructor
    · intro l hl
      obtain ⟨e, he, rfl⟩ := List.mem_map.mp hl
      refine List.Nodup.map_on ?_ (hgood e he).1
      intro b hb b' hb' heq
      have hbne : e.1 ≠ b := pairRel_ne ((hgood e he).2 b hb)
      have hmem : b ∈ ({e.1, b'} : Finset ℕ) := by
        rw [← heq]
        simp
      rcases Finset.mem_insert.mp hmem with h1 | h1
      · exact absurd h1 (Ne.symm hbne)
      · exact Finset.mem_singleton.mp h1
    · rw [List.pairwise_map]
      have hpw : E.Pairwise (fun e e' => e.1 ≠ e'.1) :=
        List.pairwise_map.mp hheads
      refine List.Pairwise.imp_of_mem ?_ hpw
      intro e e' he he' hne
      intro x hx hx'
      obtain ⟨b, hb, rfl⟩ := List.mem_map.mp hx
      obtain ⟨d, hd, heq⟩ := List.mem_map.mp hx'
      have h1 : e.1 ∈ ({e'.1, d} : Finset ℕ) := by
        rw [heq]
        simp
      have h2 : e'.1 ∈ ({e.1, b} : Finset ℕ) := by
        rw [← heq]
        simp
      have hed : e.1 = d := by
        rcases Finset.mem_insert.mp h1 with h | h
        · exact absurd h hne
        · exact Finset.mem_singleton.mp h
      have heb : e'.1 = b := by
        rcases Finset.mem_insert.mp h2 with h | h
        · exact absurd h (Ne.symm hne)
        · exact Finset.mem_singleton.mp h
      exact pairRel_asymm (heb ▸ (hgood e he).2 b hb)
        (hed ▸ (hgood e' he').2 d hd)

/-- C1: for a store whose positions all lie in the (spec's half-open)
bounds box and whose radii have a positive maximum, and any cutoff ≥ 0,
`create_verlet_lists` succeeds and its flat pair sequence has no self pair
and mentions no unordered pair twice. -/
theorem C1_create_verlet_lists (sd : SimData) (cutoff : ℚ)
    (hbox : ∀ p ∈ sd.positions, inBoundsSpec sd.bounds p)
    (hmax : ∃ m, foldMaxNan sd.radii = some m ∧ 0 < m)
    (hcut : 0 ≤ cutoff)
    (hplen : sd.positions.length = sd.num_particles) :
    ∃ vl, create_verlet_lists sd cutoff = some vl ∧
      (∀ pr ∈ flatPairs vl.verlet_lists, pr.1 ≠ pr.2) ∧
      ((flatPairs vl.verlet_lists).map
        (fun pr => ({pr.1, pr.2} : Finset ℕ))).Nodup := by
  obtain ⟨m, hm, hmpos⟩ := hmax
  have hrne : sd.radii ≠ [] := by
    intro h
    rw [h] at hm
    exact Option.noConfusion hm
  have hNpos : 0 < sd.num_particles := List.length_pos.mpr hrne
  have hppos : 0 < sd.positions.length := by
    rw [hplen]
    exact hNpos
  obtain ⟨p0, hp0⟩ : ∃ p, p ∈ sd.positions := List.exists_mem_of_length_pos hppos
  obtain ⟨ha1, ha2, ha3, ha4⟩ := hbox p0 hp0
  have hempty : sd.is_empty = false := by
    unfold SimData.is_empty
    simp [hrne]
  set nx := max 1 (⌊sd.bounds.width / m⌋).toNat with hnx
  set ny := max 1 (⌊sd.bounds.height / m⌋).toNat with hny
  have hnxpos : 0 < nx := lt_of_lt_of_le one_pos (le_max_left _ _)
  have hnypos : 0 < ny := lt_of_lt_of_le one_pos (le_max_left _ _)
  set lc0 : LinkedCells :=
    { num_x := nx, num_y := ny, cells := List.replicate (nx * ny) ⟨[]⟩,
      bounds := sd.bounds, cell_width := sd.bounds.width / (nx : ℚ),
      cell_height := sd.bounds.height / (ny : ℚ) } with hlc0
  have hnew : LinkedCells.new_for_simdata sd m = some lc0 := by
    unfold LinkedCells.new_for_simdata LinkedCells.new
    rw [if_neg (not_le.mpr hmpos)]
  have hvalid : ∀ id ∈ List.range sd.num_particles, ∃ p,
      sd.positions.get? id = some p ∧
      (lc0.get_cell_indices p.x p.y).1 < lc0.num_x ∧
      (lc0.get_cell_indices p.x p.y).2 < lc0.num_y := by
    intro id hid
    have hidlt : id < sd.positions.length := by
      rw [hplen]
      exact List.mem_range.mp hid
    obtain ⟨hb1, hb2, hb3, hb4⟩ := hbox _ (List.getElem_mem hidlt)
    refine ⟨sd.positions[id],
      by rw [List.get?_eq_getElem?, List.getElem?_eq_getElem hidlt], ?_, ?_⟩
    · exact bin_axis_in_range hnxpos hb1 hb2
    · exact bin_axis_in_range hnypos hb3 hb4
  obtain ⟨lc, hfold, hnxeq, hnyeq, hbdeq, hcweq, hcheq, hcleneq, hcells⟩ :=
    addAll_cells sd (List.range sd.num_particles) lc0 hvalid (by simp [hlc0])
  have hlen : lc.cells.length = lc.num_x * lc.num_y := by
    rw [hcleneq, hnxeq, hnyeq]
    simp [hlc0]
  have hbk : binKey lc sd = binKey lc0 sd := binKey_congr sd hbdeq hcweq hcheq
  have HC : ∀ cx cy, cx < lc.num_x → cy < lc.num_y →
      cellList lc cx cy = (List.range sd.num_particles).filter
        (fun id => decide (binKey lc sd id = (cx, cy))) := by
    intro cx cy hcx hcy
    have h1 := hcells cx cy (by rw [← hnxeq]; exact hcx) (by rw [← hnyeq]; exact hcy)
    have h2 : cellList lc0 cx cy = [] := by
      unfold cellList
      rw [List.getD_eq_getElem?_getD]
      show ((List.replicate (nx * ny) (⟨[]⟩ : Cell))[lc0.num_x * cy + cx]?.getD
        ⟨[]⟩).particle_ids = []
      rw [List.getElem?_replicate]
      split_ifs <;> rfl
    rw [h1, h2, hbk]
    simp
  obtain ⟨ess, hmapM, hgood0, hheads, hmem⟩ :=
    build_spec lc sd cutoff sd.num_particles hplen rfl hlen HC lc.cellOrder
      (cellOrder_mem lc) (cellOrder_nodup lc)
  have hall := flat_pairs_good lc sd ess.flatten
    (fun e he => ⟨(hgood0 e he).1, fun b hb => ((hgood0 e he).2.2 b hb).2⟩) hheads
  refine ⟨VerletLists.fromList ess.flatten, ?_, hall.1, hall.2⟩
  unfold create_verlet_lists
  rw [if_neg (by simp [hempty])]
  have hfold2 := hfold
  have hmapM2 := hmapM
  simp only [Option.bind_eq_bind, Option.pure_def] at hfold2 hmapM2
  simp only [Option.bind_eq_bind, Option.pure_def]
  rw [hm]
  simp only [Option.some_bind]
  rw [hnew]
  simp only [Option.some_bind]
  rw [hfold2]
  simp only [Option.some_bind]
  rw [hmapM2]
  simp only [Option.some_bind]

/-- C1 witness: `create_verlet_lists` on the two-particle store `simdataC1`
with cutoff `0`. -/
theorem C1_create_verlet_lists_witness :
    ∃ vl, create_verlet_lists simdataC1 0 = some vl ∧
      (∀ pr ∈ flatPairs vl.verlet_lists, pr.1 ≠ pr.2) ∧
      ((flatPairs vl.verlet_lists).map
        (fun pr => ({pr.1, pr.2} : Finset ℕ))).Nodup :=
  C1_create_verlet_lists simdataC1 0
    (by with_unfolding_all decide)
    ⟨1, by with_unfolding_all decide, by norm_num⟩
    le_rfl rfl

end RustMd
